import Mathlib

/-!
Verification of the Simple-NumPy-ML neural-network library.

The development shallowly embeds the tensor shape arithmetic and the
correlation, dilation and pooling engine of common/vector.py, the layer
operations of model/layer.py and model.py, and the stochastic-gradient-descent
optimizer of model/optimizer.py and model.py. Matrices are embedded as total
functions from indices to rationals; sums over the relevant index ranges
recover the array semantics. Real numbers of the library (numpy float32) are
modelled by exact rationals.
-/

namespace SNML

/-- Matrices with two spatial indices, as used by the correlation engine. -/
abbrev Mat : Type := ℕ → ℕ → ℚ

/-- The machine epsilon constant of common (EPSILON = 1e-7). -/
def EPSILON : ℚ := 1 / 10000000

/-- The largest finite float32 value, np.finfo(REAL_TYPE).max. -/
def maxFloat32 : ℚ := (2 ^ 24 - 1) * 2 ^ 104

/-! ## Shape arithmetic (common/vector.py) -/

/-- Embeds numpy.broadcast_to for a 1-D shape tuple: the list is returned
unchanged when it already has the requested length, a length-one list is
stretched, and every other length fails to broadcast. -/
def broadcastTo (s : List ℤ) (n : ℕ) : Option (List ℤ) :=
  if s.length = n then some s
  else if s.length = 1 then some (List.replicate n (s.headD 0))
  else none

/-- Pointwise combination of three lists, truncating to the shortest. -/
def zipWith3 (f : α → β → γ → δ) : List α → List β → List γ → List δ
  | a :: as, b :: bs, c :: cs => f a b c :: zipWith3 f as bs cs
  | _, _, _ => []

lemma zipWith3_length (f : α → β → γ → δ) (a : List α) (b : List β) (c : List γ) :
    (zipWith3 f a b c).length = min a.length (min b.length c.length) := by
  induction a generalizing b c with
  | nil => simp [zipWith3]
  | cons x xs ih =>
    cases b with
    | nil => simp [zipWith3]
    | cons y ys =>
      cases c with
      | nil => simp [zipWith3]
      | cons z zs =>
        show (zipWith3 f xs ys zs).length + 1 = _
        rw [ih]
        simp only [List.length_cons]
        omega

/-- The per-dimension output extent of vec.correlate_shape:
floor((m - k) / s) + 1, clamped below at zero. Numpy floor division on
integers is Int.fdiv. -/
def correlateDim (m k s : ℤ) : ℤ := max ((m - k).fdiv s + 1) 0

/-- Embeds vec.correlate_shape from common/vector.py. The shape tuples are
lists of integers. The Python slice matrix_shape[:-nd] with nd = 0 denotes
the empty tuple and matrix_shape[-0:] denotes the whole tuple, so an empty
kernel shape drops every dimension; in that case np.subtract broadcasts the
full matrix shape against a length-zero array, which only succeeds when the
matrix shape has at most one entry. A failed stride broadcast or a failed
subtract broadcast is modelled as none, mirroring the raised exception. -/
def correlate_shape (ms ks ss : List ℤ) : Option (List ℤ) :=
  if ms.length < ks.length then none
  else
    match broadcastTo ss ks.length with
    | none => none
    | some st =>
      if ks.length = 0 then
        if ms.length ≤ 1 then some [] else none
      else
        some (ms.take (ms.length - ks.length) ++
          zipWith3 correlateDim (ms.drop (ms.length - ks.length)) ks st)

/-! ## The correlation and dilation engine (common/vector.py) -/

/-- Embeds vec.correlate for a two-dimensional kernel: output position
(i, j) holds the inner product of the kernel with the window of the matrix
anchored at (i * sh, j * sw). -/
def correlate (m k : Mat) (kh kw sh sw : ℕ) : Mat :=
  fun i j => ∑ a ∈ Finset.range kh, ∑ b ∈ Finset.range kw,
    m (i * sh + a) (j * sw + b) * k a b

/-- Embeds vec.dilate for a two-dimensional matrix of extent mh by mw:
the entry of the source at (i, j) is scattered to
(ph + i * sh, pw + j * sw) and every other position is zero. -/
def dilate (m : Mat) (mh mw sh sw ph pw : ℕ) : Mat :=
  fun u v =>
    if ph ≤ u ∧ pw ≤ v ∧ (u - ph) % sh = 0 ∧ (v - pw) % sw = 0 ∧
        (u - ph) / sh < mh ∧ (v - pw) / sw < mw then
      m ((u - ph) / sh) ((v - pw) / sw)
    else 0

/-! ## Sum lemmas for the dilation and correlation engine -/

lemma eq_scatter_iff (sh ph u i : ℕ) (hsh : 1 ≤ sh) (hph : ph ≤ u)
    (hmod : (u - ph) % sh = 0) : u = ph + i * sh ↔ i = (u - ph) / sh := by
  constructor
  · intro h
    subst h
    have h1 : ph + i * sh - ph = i * sh := by omega
    rw [h1, Nat.mul_div_cancel i hsh]
  · intro h
    subst h
    have hdvd : sh ∣ (u - ph) := Nat.dvd_of_mod_eq_zero hmod
    have h2 : (u - ph) / sh * sh = u - ph := Nat.div_mul_cancel hdvd
    omega

lemma sum_ite_eq_pair (U V cu cv : ℕ) (f : ℕ → ℕ → ℚ) (h1 : cu < U) (h2 : cv < V) :
    (∑ u ∈ Finset.range U, ∑ v ∈ Finset.range V,
      if u = cu ∧ v = cv then f u v else 0) = f cu cv := by
  have inner : ∀ u, (∑ v ∈ Finset.range V, if u = cu ∧ v = cv then f u v else 0)
      = if u = cu then f u cv else 0 := by
    intro u
    by_cases hu : u = cu
    · subst hu
      simp only [true_and]
      rw [Finset.sum_ite_eq' (Finset.range V) cv (fun v => f u v)]
      simp [h2]
    · simp [hu]
  rw [Finset.sum_congr rfl (fun u _ => inner u)]
  rw [Finset.sum_ite_eq' (Finset.range U) cu (fun u => f u cv)]
  simp [h1]

/-- A dilated matrix entry equals a sum of indicators over the source
positions: this turns the scatter of vec.dilate into a form where sums
against it can be reindexed. -/
lemma dilate_eq_sum (m : Mat) (mh mw sh sw ph pw : ℕ)
    (hsh : 1 ≤ sh) (hsw : 1 ≤ sw) (u v : ℕ) :
    dilate m mh mw sh sw ph pw u v =
      ∑ i ∈ Finset.range mh, ∑ j ∈ Finset.range mw,
        if u = ph + i * sh ∧ v = pw + j * sw then m i j else 0 := by
  by_cases h : ph ≤ u ∧ pw ≤ v ∧ (u - ph) % sh = 0 ∧ (v - pw) % sw = 0 ∧
      (u - ph) / sh < mh ∧ (v - pw) / sw < mw
  · obtain ⟨h1, h2, h3, h4, h5, h6⟩ := h
    have congr1 : ∀ i ∈ Finset.range mh, ∀ j ∈ Finset.range mw,
        (if u = ph + i * sh ∧ v = pw + j * sw then m i j else 0)
          = if i = (u - ph) / sh ∧ j = (v - pw) / sw then m i j else 0 := by
      intro i _ j _
      exact if_congr (and_congr (eq_scatter_iff sh ph u i hsh h1 h3)
        (eq_scatter_iff sw pw v j hsw h2 h4)) rfl rfl
    rw [Finset.sum_congr rfl (fun i hi => Finset.sum_congr rfl (fun j hj => congr1 i hi j hj))]
    rw [sum_ite_eq_pair mh mw ((u - ph) / sh) ((v - pw) / sw) (fun i j => m i j) h5 h6]
    unfold dilate
    rw [if_pos ⟨h1, h2, h3, h4, h5, h6⟩]
  · have zero1 : ∀ i ∈ Finset.range mh, ∀ j ∈ Finset.range mw,
        (if u = ph + i * sh ∧ v = pw + j * sw then m i j else 0) = 0 := by
      intro i hi j hj
      rw [Finset.mem_range] at hi hj
      rw [if_neg]
      intro ⟨hu, hv⟩
      apply h
      subst hu; subst hv
      have e1 : ph + i * sh - ph = i * sh := by omega
      have e2 : pw + j * sw - pw = j * sw := by omega
      rw [e1, e2, Nat.mul_mod_left, Nat.mul_mod_left,
        Nat.mul_div_cancel i hsh, Nat.mul_div_cancel j hsw]
      omega
    rw [Finset.sum_congr rfl (fun i hi => Finset.sum_congr rfl (fun j hj => zero1 i hi j hj))]
    unfold dilate
    rw [if_neg h]
    simp

lemma sum_swap4 (F : ℕ → ℕ → ℕ → ℕ → ℚ) (U V I J : ℕ) :
    (∑ u ∈ Finset.range U, ∑ v ∈ Finset.range V,
      ∑ i ∈ Finset.range I, ∑ j ∈ Finset.range J, F u v i j)
    = ∑ i ∈ Finset.range I, ∑ j ∈ Finset.range J,
        ∑ u ∈ Finset.range U, ∑ v ∈ Finset.range V, F u v i j := by
  calc (∑ u ∈ Finset.range U, ∑ v ∈ Finset.range V,
          ∑ i ∈ Finset.range I, ∑ j ∈ Finset.range J, F u v i j)
      = ∑ u ∈ Finset.range U, ∑ i ∈ Finset.range I,
          ∑ v ∈ Finset.range V, ∑ j ∈ Finset.range J, F u v i j :=
        Finset.sum_congr rfl (fun u _ => Finset.sum_comm)
    _ = ∑ i ∈ Finset.range I, ∑ u ∈ Finset.range U,
          ∑ v ∈ Finset.range V, ∑ j ∈ Finset.range J, F u v i j := Finset.sum_comm
    _ = ∑ i ∈ Finset.range I, ∑ u ∈ Finset.range U,
          ∑ j ∈ Finset.range J, ∑ v ∈ Finset.range V, F u v i j :=
        Finset.sum_congr rfl (fun i _ => Finset.sum_congr rfl (fun u _ => Finset.sum_comm))
    _ = ∑ i ∈ Finset.range I, ∑ j ∈ Finset.range J,
          ∑ u ∈ Finset.range U, ∑ v ∈ Finset.range V, F u v i j :=
        Finset.sum_congr rfl (fun i _ => Finset.sum_comm)

/-- Correlating any coefficient field g against a dilated matrix collapses
to a stride-indexed sum over the source matrix: the algebraic core of the
equivalence between backpropagation through a strided correlation and a
stride-one correlation with the dilated gradient. -/
lemma correlate_dilate (m g : Mat) (mh mw sh sw ph pw : ℕ)
    (hsh : 1 ≤ sh) (hsw : 1 ≤ sw) :
    (∑ u ∈ Finset.range (2 * ph + (mh - 1) * sh + 1),
      ∑ v ∈ Finset.range (2 * pw + (mw - 1) * sw + 1),
        g u v * dilate m mh mw sh sw ph pw u v)
    = ∑ i ∈ Finset.range mh, ∑ j ∈ Finset.range mw,
        g (ph + i * sh) (pw + j * sw) * m i j := by
  have step1 : ∀ u v, g u v * dilate m mh mw sh sw ph pw u v
      = ∑ i ∈ Finset.range mh, ∑ j ∈ Finset.range mw,
          if u = ph + i * sh ∧ v = pw + j * sw then g u v * m i j else 0 := by
    intro u v
    rw [dilate_eq_sum m mh mw sh sw ph pw hsh hsw u v, Finset.mul_sum]
    refine Finset.sum_congr rfl (fun i _ => ?_)
    rw [Finset.mul_sum]
    refine Finset.sum_congr rfl (fun j _ => ?_)
    rw [mul_ite, mul_zero]
  rw [Finset.sum_congr rfl (fun u _ => Finset.sum_congr rfl (fun v _ => step1 u v))]
  rw [sum_swap4]
  refine Finset.sum_congr rfl (fun i hi => Finset.sum_congr rfl (fun j hj => ?_))
  rw [Finset.mem_range] at hi hj
  have hbi : ph + i * sh < 2 * ph + (mh - 1) * sh + 1 := by
    have := Nat.mul_le_mul_right sh (show i ≤ mh - 1 by omega)
    omega
  have hbj : pw + j * sw < 2 * pw + (mw - 1) * sw + 1 := by
    have := Nat.mul_le_mul_right sw (show j ≤ mw - 1 by omega)
    omega
  have collapse := sum_ite_eq_pair (2 * ph + (mh - 1) * sh + 1)
    (2 * pw + (mw - 1) * sw + 1) (ph + i * sh) (pw + j * sw)
    (fun u v => g u v * m i j) hbi hbj
  rw [collapse]

/-! ## The Convolution layer (model/layer.py)

The layer is embedded for a single input channel, the configuration under
which the repository constructs convolution layers. For a single input
channel the channel axis of the kernel has extent one, so the channel part
of the kernel flip and of the zero padding used by backpropagate is the
identity and the correlations below carry only the two spatial indices.
The kernels of the output features are a feature-indexed family of
matrices, as is the error signal delta. -/

namespace Convolution

/-- Embeds Convolution.weighted_input: per output feature, the strided
correlation of the input with the kernel of that feature plus the bias of
that feature. -/
def weighted_input (x : Mat) (w : ℕ → Mat) (bias : ℕ → ℚ) (kh kw sh sw : ℕ) :
    ℕ → Mat :=
  fun f i j => correlate x (w f) kh kw sh sw i j + bias f

/-- Embeds the bias part of Convolution.derived_params: the per-feature
spatial sum of delta. -/
def derived_params_b (δ : ℕ → Mat) (oh ow : ℕ) : ℕ → ℚ :=
  fun f => ∑ i ∈ Finset.range oh, ∑ j ∈ Finset.range ow, δ f i j

/-- Embeds the weight part of Convolution.derived_params: per output
feature, the stride-one correlation of the input with the dilation of
delta by the forward stride. The dilated gradient has spatial extent
(oh - 1) * sh + 1 by (ow - 1) * sw + 1. -/
def derived_params_w (x : Mat) (δ : ℕ → Mat) (oh ow sh sw : ℕ) : ℕ → Mat :=
  fun f => correlate x (dilate (δ f) oh ow sh sw 0 0)
    ((oh - 1) * sh + 1) ((ow - 1) * sw + 1) 1 1

/-- Embeds Convolution.backpropagate: delta is dilated by the forward
stride and zero-padded by the kernel extent minus one in each spatial
dimension, then correlated at stride one with the spatially flipped
kernel, and the contributions of all output features are summed. -/
def backpropagate (δ : ℕ → Mat) (w : ℕ → Mat) (F kh kw oh ow sh sw : ℕ) : Mat :=
  fun p q => ∑ f ∈ Finset.range F,
    correlate (dilate (δ f) oh ow sh sw (kh - 1) (kw - 1))
      (fun a b => w f (kh - 1 - a) (kw - 1 - b)) kh kw 1 1 p q

/-- Closed form of the weight gradient: entry (a, b) of the gradient of
feature f accumulates delta against the input window values under the
forward stride. -/
lemma derived_params_w_eq (x : Mat) (δ : ℕ → Mat) (oh ow sh sw : ℕ)
    (hsh : 1 ≤ sh) (hsw : 1 ≤ sw) (f a b : ℕ) :
    derived_params_w x δ oh ow sh sw f a b
      = ∑ i ∈ Finset.range oh, ∑ j ∈ Finset.range ow,
          δ f i j * x (i * sh + a) (j * sw + b) := by
  unfold derived_params_w correlate
  simp only [mul_one]
  have core := correlate_dilate (δ f) (fun u v => x (a + u) (b + v))
    oh ow sh sw 0 0 hsh hsw
  simp only [Nat.mul_zero, Nat.zero_add] at core
  rw [core]
  refine Finset.sum_congr rfl (fun i _ => Finset.sum_congr rfl (fun j _ => ?_))
  rw [mul_comm, Nat.add_comm a (i * sh), Nat.add_comm b (j * sw)]

/-- Linearity of the forward pass in the kernel: perturbing the kernels by
dw changes each pre-activation by the correlation of the input with dw. -/
lemma weighted_input_sub_w (x : Mat) (w dw : ℕ → Mat) (bias : ℕ → ℚ)
    (kh kw sh sw : ℕ) (f i j : ℕ) :
    weighted_input x (fun g => w g + dw g) bias kh kw sh sw f i j
      - weighted_input x w bias kh kw sh sw f i j
      = ∑ a ∈ Finset.range kh, ∑ b ∈ Finset.range kw,
          x (i * sh + a) (j * sw + b) * dw f a b := by
  unfold weighted_input correlate
  have expand : ∀ a b, x (i * sh + a) (j * sw + b) * (w f + dw f) a b
      = x (i * sh + a) (j * sw + b) * w f a b
        + x (i * sh + a) (j * sw + b) * dw f a b := by
    intro a b
    have : (w f + dw f) a b = w f a b + dw f a b := rfl
    rw [this, mul_add]
  rw [Finset.sum_congr rfl (fun a _ => Finset.sum_congr rfl (fun b _ => expand a b))]
  rw [Finset.sum_congr rfl (fun a _ => Finset.sum_add_distrib), Finset.sum_add_distrib]
  ring

/-- Linearity of the forward pass in the input: perturbing the input by dx
changes each pre-activation by the correlation of dx with the kernel. -/
lemma weighted_input_sub_x (x dx : Mat) (w : ℕ → Mat) (bias : ℕ → ℚ)
    (kh kw sh sw : ℕ) (f i j : ℕ) :
    weighted_input (fun u v => x u v + dx u v) w bias kh kw sh sw f i j
      - weighted_input x w bias kh kw sh sw f i j
      = ∑ a ∈ Finset.range kh, ∑ b ∈ Finset.range kw,
          dx (i * sh + a) (j * sw + b) * w f a b := by
  unfold weighted_input correlate
  have expand : ∀ a b,
      (x (i * sh + a) (j * sw + b) + dx (i * sh + a) (j * sw + b)) * w f a b
      = x (i * sh + a) (j * sw + b) * w f a b
        + dx (i * sh + a) (j * sw + b) * w f a b := by
    intro a b
    rw [add_mul]
  rw [Finset.sum_congr rfl (fun a _ => Finset.sum_congr rfl (fun b _ => expand a b))]
  rw [Finset.sum_congr rfl (fun a _ => Finset.sum_add_distrib), Finset.sum_add_distrib]
  ring

lemma sum_swap_outer (G : ℕ → ℕ → ℕ → ℚ) (A B C : ℕ) :
    (∑ p ∈ Finset.range A, ∑ q ∈ Finset.range B, ∑ f ∈ Finset.range C, G p q f)
    = ∑ f ∈ Finset.range C, ∑ p ∈ Finset.range A, ∑ q ∈ Finset.range B, G p q f := by
  calc (∑ p ∈ Finset.range A, ∑ q ∈ Finset.range B, ∑ f ∈ Finset.range C, G p q f)
      = ∑ p ∈ Finset.range A, ∑ f ∈ Finset.range C, ∑ q ∈ Finset.range B, G p q f :=
        Finset.sum_congr rfl (fun p _ => Finset.sum_comm)
    _ = ∑ f ∈ Finset.range C, ∑ p ∈ Finset.range A, ∑ q ∈ Finset.range B, G p q f :=
        Finset.sum_comm

/-- Pointwise closed form of one feature of the backpropagated error: the
stride-one correlation of the padded dilated delta with the flipped kernel
reads, at input position (p, q), the kernel entry aligned with that
position for every output window containing it. -/
lemma backprop_term_eq (δf wf : Mat) (kh kw oh ow sh sw : ℕ)
    (hsh : 1 ≤ sh) (hsw : 1 ≤ sw) (p q : ℕ) :
    correlate (dilate δf oh ow sh sw (kh - 1) (kw - 1))
      (fun a b => wf (kh - 1 - a) (kw - 1 - b)) kh kw 1 1 p q
    = ∑ i ∈ Finset.range oh, ∑ j ∈ Finset.range ow,
        δf i j * (if i * sh ≤ p ∧ p < i * sh + kh ∧ j * sw ≤ q ∧ q < j * sw + kw
          then wf (p - i * sh) (q - j * sw) else 0) := by
  unfold correlate
  simp only [mul_one]
  have expand : ∀ a b,
      dilate δf oh ow sh sw (kh - 1) (kw - 1) (p + a) (q + b) * wf (kh - 1 - a) (kw - 1 - b)
      = ∑ i ∈ Finset.range oh, ∑ j ∈ Finset.range ow,
          if p + a = (kh - 1) + i * sh ∧ q + b = (kw - 1) + j * sw
            then δf i j * wf (kh - 1 - a) (kw - 1 - b) else 0 := by
    intro a b
    rw [dilate_eq_sum δf oh ow sh sw (kh - 1) (kw - 1) hsh hsw (p + a) (q + b),
      Finset.sum_mul]
    refine Finset.sum_congr rfl (fun i _ => ?_)
    rw [Finset.sum_mul]
    refine Finset.sum_congr rfl (fun j _ => ?_)
    rw [ite_mul, zero_mul]
  rw [Finset.sum_congr rfl (fun a _ => Finset.sum_congr rfl (fun b _ => expand a b))]
  rw [sum_swap4]
  refine Finset.sum_congr rfl (fun i hi => Finset.sum_congr rfl (fun j hj => ?_))
  rw [Finset.mem_range] at hi hj
  obtain ⟨X, hX⟩ : ∃ X, i * sh = X := ⟨i * sh, rfl⟩
  obtain ⟨Y, hY⟩ : ∃ Y, j * sw = Y := ⟨j * sw, rfl⟩
  rw [hX, hY]
  by_cases hw : X ≤ p ∧ p < X + kh ∧ Y ≤ q ∧ q < Y + kw
  · have congrA : ∀ a ∈ Finset.range kh, ∀ b ∈ Finset.range kw,
        (if p + a = (kh - 1) + X ∧ q + b = (kw - 1) + Y
          then δf i j * wf (kh - 1 - a) (kw - 1 - b) else 0)
        = if a = (kh - 1) + X - p ∧ b = (kw - 1) + Y - q
            then δf i j * wf (kh - 1 - a) (kw - 1 - b) else 0 := by
      intro a ha b hb
      rw [Finset.mem_range] at ha hb
      refine if_congr (and_congr ?_ ?_) rfl rfl
      · constructor <;> (intro hcond; omega)
      · constructor <;> (intro hcond; omega)
    rw [Finset.sum_congr rfl (fun a ha => Finset.sum_congr rfl (fun b hb => congrA a ha b hb))]
    have ha0 : (kh - 1) + X - p < kh := by omega
    have hb0 : (kw - 1) + Y - q < kw := by omega
    rw [sum_ite_eq_pair kh kw ((kh - 1) + X - p) ((kw - 1) + Y - q)
      (fun a b => δf i j * wf (kh - 1 - a) (kw - 1 - b)) ha0 hb0]
    rw [if_pos hw]
    have e1 : kh - 1 - ((kh - 1) + X - p) = p - X := by omega
    have e2 : kw - 1 - ((kw - 1) + Y - q) = q - Y := by omega
    rw [e1, e2]
  · have zeroA : ∀ a ∈ Finset.range kh, ∀ b ∈ Finset.range kw,
        (if p + a = (kh - 1) + X ∧ q + b = (kw - 1) + Y
          then δf i j * wf (kh - 1 - a) (kw - 1 - b) else 0) = 0 := by
      intro a ha b hb
      rw [Finset.mem_range] at ha hb
      rw [if_neg]
      intro ⟨hca, hcb⟩
      exact hw (by omega)
    rw [Finset.sum_congr rfl (fun a ha => Finset.sum_congr rfl (fun b hb => zeroA a ha b hb))]
    rw [if_neg hw, mul_zero]
    simp

/-- The window indicator written as a sum over kernel coordinates. -/
lemma window_if_eq_sum (wf : Mat) (kh kw ci cj p q : ℕ) :
    (if ci ≤ p ∧ p < ci + kh ∧ cj ≤ q ∧ q < cj + kw
      then wf (p - ci) (q - cj) else 0)
    = ∑ a ∈ Finset.range kh, ∑ b ∈ Finset.range kw,
        if p = ci + a ∧ q = cj + b then wf a b else 0 := by
  by_cases h : ci ≤ p ∧ p < ci + kh ∧ cj ≤ q ∧ q < cj + kw
  · have congrA : ∀ a ∈ Finset.range kh, ∀ b ∈ Finset.range kw,
        (if p = ci + a ∧ q = cj + b then wf a b else 0)
        = if a = p - ci ∧ b = q - cj then wf a b else 0 := by
      intro a ha b hb
      refine if_congr (and_congr ?_ ?_) rfl rfl
      · constructor <;> (intro hc; omega)
      · constructor <;> (intro hc; omega)
    rw [Finset.sum_congr rfl (fun a ha => Finset.sum_congr rfl (fun b hb => congrA a ha b hb))]
    rw [sum_ite_eq_pair kh kw (p - ci) (q - cj) (fun a b => wf a b) (by omega) (by omega)]
    rw [if_pos h]
  · have zeroA : ∀ a ∈ Finset.range kh, ∀ b ∈ Finset.range kw,
        (if p = ci + a ∧ q = cj + b then wf a b else 0) = 0 := by
      intro a ha b hb
      rw [Finset.mem_range] at ha hb
      rw [if_neg]
      intro ⟨hca, hcb⟩
      exact h (by omega)
    rw [Finset.sum_congr rfl (fun a ha => Finset.sum_congr rfl (fun b hb => zeroA a ha b hb))]
    rw [if_neg h]
    simp

/-- Adjoint form of a single window: summing the window indicator against a
perturbation field recovers the windowed values of the perturbation. -/
lemma window_adjoint (wf dx : Mat) (kh kw ci cj H W : ℕ)
    (hH : ci + kh ≤ H) (hW : cj + kw ≤ W) :
    (∑ p ∈ Finset.range H, ∑ q ∈ Finset.range W,
      (if ci ≤ p ∧ p < ci + kh ∧ cj ≤ q ∧ q < cj + kw
        then wf (p - ci) (q - cj) else 0) * dx p q)
    = ∑ a ∈ Finset.range kh, ∑ b ∈ Finset.range kw, dx (ci + a) (cj + b) * wf a b := by
  have expand : ∀ p q,
      (if ci ≤ p ∧ p < ci + kh ∧ cj ≤ q ∧ q < cj + kw
        then wf (p - ci) (q - cj) else 0) * dx p q
      = ∑ a ∈ Finset.range kh, ∑ b ∈ Finset.range kw,
          if p = ci + a ∧ q = cj + b then wf a b * dx p q else 0 := by
    intro p q
    rw [window_if_eq_sum wf kh kw ci cj p q, Finset.sum_mul]
    refine Finset.sum_congr rfl (fun a _ => ?_)
    rw [Finset.sum_mul]
    refine Finset.sum_congr rfl (fun b _ => ?_)
    rw [ite_mul, zero_mul]
  rw [Finset.sum_congr rfl (fun p _ => Finset.sum_congr rfl (fun q _ => expand p q))]
  rw [sum_swap4]
  refine Finset.sum_congr rfl (fun a ha => Finset.sum_congr rfl (fun b hb => ?_))
  rw [Finset.mem_range] at ha hb
  rw [sum_ite_eq_pair H W (ci + a) (cj + b) (fun p q => wf a b * dx p q)
    (by omega) (by omega)]
  rw [mul_comm]

end Convolution

/-- C1. For every convolution layer with a given kernel and forward stride
and every conforming input x and error signal delta: the weight gradient
returned by derived_params is the stride-one correlation of x with delta
dilated by the forward stride, the input gradient returned by
backpropagate is the stride-one correlation of delta (dilated by the
forward stride and zero-padded by the kernel extent minus one) with the
spatially flipped kernel, and both are the true gradients of the forward
pass z = correlate(x, kernel, stride) + bias: for every perturbation dw of
the kernel and dx of the input, the exact change of the pre-activations
weighed by delta equals the inner product of the returned gradient with
the perturbation. -/
theorem C1_convolution_true_gradient
    (x dx : Mat) (w dw δ : ℕ → Mat) (bias : ℕ → ℚ)
    (F kh kw oh ow sh sw H W : ℕ)
    (hsh : 1 ≤ sh) (hsw : 1 ≤ sw) (hkh : 1 ≤ kh) (hkw : 1 ≤ kw)
    (hoh : 1 ≤ oh) (how : 1 ≤ ow)
    (hH : H = (oh - 1) * sh + kh) (hW : W = (ow - 1) * sw + kw) :
    ((∑ f ∈ Finset.range F, ∑ i ∈ Finset.range oh, ∑ j ∈ Finset.range ow,
        δ f i j * (Convolution.weighted_input x (fun g => w g + dw g) bias kh kw sh sw f i j
          - Convolution.weighted_input x w bias kh kw sh sw f i j))
      = ∑ f ∈ Finset.range F, ∑ a ∈ Finset.range kh, ∑ b ∈ Finset.range kw,
          Convolution.derived_params_w x δ oh ow sh sw f a b * dw f a b)
    ∧ ((∑ f ∈ Finset.range F, ∑ i ∈ Finset.range oh, ∑ j ∈ Finset.range ow,
        δ f i j * (Convolution.weighted_input (fun u v => x u v + dx u v) w bias kh kw sh sw f i j
          - Convolution.weighted_input x w bias kh kw sh sw f i j))
      = ∑ p ∈ Finset.range H, ∑ q ∈ Finset.range W,
          Convolution.backpropagate δ w F kh kw oh ow sh sw p q * dx p q) := by
  constructor
  · -- the weight gradient is the true gradient
    have lhs_eq : (∑ f ∈ Finset.range F, ∑ i ∈ Finset.range oh, ∑ j ∈ Finset.range ow,
        δ f i j * (Convolution.weighted_input x (fun g => w g + dw g) bias kh kw sh sw f i j
          - Convolution.weighted_input x w bias kh kw sh sw f i j))
        = ∑ f ∈ Finset.range F, ∑ i ∈ Finset.range oh, ∑ j ∈ Finset.range ow,
            ∑ a ∈ Finset.range kh, ∑ b ∈ Finset.range kw,
              δ f i j * (x (i * sh + a) (j * sw + b) * dw f a b) := by
      refine Finset.sum_congr rfl (fun f _ => Finset.sum_congr rfl
        (fun i _ => Finset.sum_congr rfl (fun j _ => ?_)))
      rw [Convolution.weighted_input_sub_w, Finset.mul_sum]
      refine Finset.sum_congr rfl (fun a _ => ?_)
      rw [Finset.mul_sum]
    have rhs_eq : (∑ f ∈ Finset.range F, ∑ a ∈ Finset.range kh, ∑ b ∈ Finset.range kw,
        Convolution.derived_params_w x δ oh ow sh sw f a b * dw f a b)
        = ∑ f ∈ Finset.range F, ∑ i ∈ Finset.range oh, ∑ j ∈ Finset.range ow,
            ∑ a ∈ Finset.range kh, ∑ b ∈ Finset.range kw,
              δ f i j * (x (i * sh + a) (j * sw + b) * dw f a b) := by
      refine Finset.sum_congr rfl (fun f _ => ?_)
      have step1 : (∑ a ∈ Finset.range kh, ∑ b ∈ Finset.range kw,
          Convolution.derived_params_w x δ oh ow sh sw f a b * dw f a b)
          = ∑ a ∈ Finset.range kh, ∑ b ∈ Finset.range kw,
              ∑ i ∈ Finset.range oh, ∑ j ∈ Finset.range ow,
                (δ f i j * x (i * sh + a) (j * sw + b)) * dw f a b := by
        refine Finset.sum_congr rfl (fun a _ => Finset.sum_congr rfl (fun b _ => ?_))
        rw [Convolution.derived_params_w_eq x δ oh ow sh sw hsh hsw f a b, Finset.sum_mul]
        refine Finset.sum_congr rfl (fun i _ => ?_)
        rw [Finset.sum_mul]
      rw [step1, sum_swap4 (fun a b i j =>
        (δ f i j * x (i * sh + a) (j * sw + b)) * dw f a b) kh kw oh ow]
      refine Finset.sum_congr rfl (fun i _ => Finset.sum_congr rfl
        (fun j _ => Finset.sum_congr rfl (fun a _ => Finset.sum_congr rfl (fun b _ => ?_))))
      rw [mul_assoc]
    rw [lhs_eq, rhs_eq]
  · -- the backpropagated error is the true input gradient
    have lhs_eq : (∑ f ∈ Finset.range F, ∑ i ∈ Finset.range oh, ∑ j ∈ Finset.range ow,
        δ f i j * (Convolution.weighted_input (fun u v => x u v + dx u v) w bias kh kw sh sw f i j
          - Convolution.weighted_input x w bias kh kw sh sw f i j))
        = ∑ f ∈ Finset.range F, ∑ i ∈ Finset.range oh, ∑ j ∈ Finset.range ow,
            δ f i j * (∑ a ∈ Finset.range kh, ∑ b ∈ Finset.range kw,
              dx (i * sh + a) (j * sw + b) * w f a b) := by
      refine Finset.sum_congr rfl (fun f _ => Finset.sum_congr rfl
        (fun i _ => Finset.sum_congr rfl (fun j _ => ?_)))
      rw [Convolution.weighted_input_sub_x]
    have rhs_eq : (∑ p ∈ Finset.range H, ∑ q ∈ Finset.range W,
        Convolution.backpropagate δ w F kh kw oh ow sh sw p q * dx p q)
        = ∑ f ∈ Finset.range F, ∑ i ∈ Finset.range oh, ∑ j ∈ Finset.range ow,
            δ f i j * (∑ a ∈ Finset.range kh, ∑ b ∈ Finset.range kw,
              dx (i * sh + a) (j * sw + b) * w f a b) := by
      unfold Convolution.backpropagate
      have push : ∀ p q, (∑ f ∈ Finset.range F,
          correlate (dilate (δ f) oh ow sh sw (kh - 1) (kw - 1))
            (fun a b => w f (kh - 1 - a) (kw - 1 - b)) kh kw 1 1 p q) * dx p q
          = ∑ f ∈ Finset.range F,
              correlate (dilate (δ f) oh ow sh sw (kh - 1) (kw - 1))
                (fun a b => w f (kh - 1 - a) (kw - 1 - b)) kh kw 1 1 p q * dx p q := by
        intro p q
        rw [Finset.sum_mul]
      rw [Finset.sum_congr rfl (fun p _ => Finset.sum_congr rfl (fun q _ => push p q))]
      rw [Convolution.sum_swap_outer (fun p q f =>
        correlate (dilate (δ f) oh ow sh sw (kh - 1) (kw - 1))
          (fun a b => w f (kh - 1 - a) (kw - 1 - b)) kh kw 1 1 p q * dx p q) H W F]
      refine Finset.sum_congr rfl (fun f _ => ?_)
      have term_eq : ∀ p q,
          correlate (dilate (δ f) oh ow sh sw (kh - 1) (kw - 1))
            (fun a b => w f (kh - 1 - a) (kw - 1 - b)) kh kw 1 1 p q * dx p q
          = ∑ i ∈ Finset.range oh, ∑ j ∈ Finset.range ow,
              (δ f i j * (if i * sh ≤ p ∧ p < i * sh + kh ∧ j * sw ≤ q ∧ q < j * sw + kw
                then w f (p - i * sh) (q - j * sw) else 0)) * dx p q := by
        intro p q
        rw [Convolution.backprop_term_eq (δ f) (w f) kh kw oh ow sh sw hsh hsw p q,
          Finset.sum_mul]
        refine Finset.sum_congr rfl (fun i _ => ?_)
        rw [Finset.sum_mul]
      rw [Finset.sum_congr rfl (fun p _ => Finset.sum_congr rfl (fun q _ => term_eq p q))]
      rw [sum_swap4 (fun p q i j =>
        (δ f i j * (if i * sh ≤ p ∧ p < i * sh + kh ∧ j * sw ≤ q ∧ q < j * sw + kw
          then w f (p - i * sh) (q - j * sw) else 0)) * dx p q) H W oh ow]
      refine Finset.sum_congr rfl (fun i hi => Finset.sum_congr rfl (fun j hj => ?_))
      rw [Finset.mem_range] at hi hj
      have assoc : ∀ p q,
          (δ f i j * (if i * sh ≤ p ∧ p < i * sh + kh ∧ j * sw ≤ q ∧ q < j * sw + kw
            then w f (p - i * sh) (q - j * sw) else 0)) * dx p q
          = δ f i j * ((if i * sh ≤ p ∧ p < i * sh + kh ∧ j * sw ≤ q ∧ q < j * sw + kw
            then w f (p - i * sh) (q - j * sw) else 0) * dx p q) := by
        intro p q
        rw [mul_assoc]
      rw [Finset.sum_congr rfl (fun p _ => Finset.sum_congr rfl (fun q _ => assoc p q))]
      rw [Finset.sum_congr rfl (fun p _ => (Finset.mul_sum (Finset.range W) _ (δ f i j)).symm),
        (Finset.mul_sum (Finset.range H) _ (δ f i j)).symm]
      have hciH : i * sh + kh ≤ H := by
        have := Nat.mul_le_mul_right sh (show i ≤ oh - 1 by omega)
        omega
      have hcjW : j * sw + kw ≤ W := by
        have := Nat.mul_le_mul_right sw (show j ≤ ow - 1 by omega)
        omega
      rw [Convolution.window_adjoint (w f) dx kh kw (i * sh) (j * sw) H W hciH hcjW]
    rw [lhs_eq, rhs_eq]

/-- Sanity check of the correlate embedding against a repository test case:
correlating the 3 by 3 matrix 1..9 with the kernel [[-1, -2]] at stride
(2, 1) yields [[-5, -8], [-23, -26]]. -/
example :
    let m : Mat := fun i j => (1 : ℚ) + 3 * i + j
    let k : Mat := fun _ b => if b = 0 then -1 else -2
    correlate m k 1 2 2 1 0 0 = -5 ∧ correlate m k 1 2 2 1 0 1 = -8
      ∧ correlate m k 1 2 2 1 1 0 = -23 ∧ correlate m k 1 2 2 1 1 1 = -26 := by
  refine ⟨?_, ?_, ?_, ?_⟩ <;>
    simp [correlate, Finset.sum_range_succ] <;> norm_num

/-- Sanity check of the dilate embedding: dilating a 2 by 2 matrix by
stride 2 with pad 1 places the entries at odd positions of a 5 by 5
zero matrix. -/
example :
    let m : Mat := fun i j =>
      if i = 0 then (if j = 0 then (1:ℚ) else 2) else (if j = 0 then 3 else 4)
    dilate m 2 2 2 2 1 1 1 1 = 1 ∧ dilate m 2 2 2 2 1 1 1 3 = 2
      ∧ dilate m 2 2 2 2 1 1 3 1 = 3 ∧ dilate m 2 2 2 2 1 1 3 3 = 4
      ∧ dilate m 2 2 2 2 1 1 0 0 = 0 ∧ dilate m 2 2 2 2 1 1 1 2 = 0
      ∧ dilate m 2 2 2 2 1 1 2 2 = 0 := by
  decide

def c1X : Mat := fun i j => 1 + i + 2 * j

def c1DX : Mat := fun i j => 2 + i + j

def c1W : ℕ → Mat := fun f i j => 3 + f + i + j

def c1DW : ℕ → Mat := fun f i j => 4 + 2 * f + i + j

def c1Delta : ℕ → Mat := fun f i j => 5 + f + i + 3 * j

def c1Bias : ℕ → ℚ := fun f => 6 + f

/-- Witness for C1 at a one-feature layer with a 2 by 1 kernel moved at
stride 2 over a 4 by 1 input, producing 2 by 1 outputs, so the dilation of
delta by the forward stride is non-trivial. -/
theorem C1_convolution_true_gradient_witness :
    ((∑ f ∈ Finset.range 1, ∑ i ∈ Finset.range 2, ∑ j ∈ Finset.range 1,
        c1Delta f i j * (Convolution.weighted_input c1X (fun g => c1W g + c1DW g) c1Bias 2 1 2 1 f i j
          - Convolution.weighted_input c1X c1W c1Bias 2 1 2 1 f i j))
      = ∑ f ∈ Finset.range 1, ∑ a ∈ Finset.range 2, ∑ b ∈ Finset.range 1,
          Convolution.derived_params_w c1X c1Delta 2 1 2 1 f a b * c1DW f a b)
    ∧ ((∑ f ∈ Finset.range 1, ∑ i ∈ Finset.range 2, ∑ j ∈ Finset.range 1,
        c1Delta f i j * (Convolution.weighted_input (fun u v => c1X u v + c1DX u v) c1W c1Bias 2 1 2 1 f i j
          - Convolution.weighted_input c1X c1W c1Bias 2 1 2 1 f i j))
      = ∑ p ∈ Finset.range 4, ∑ q ∈ Finset.range 1,
          Convolution.backpropagate c1Delta c1W 1 2 1 2 1 2 1 p q * c1DX p q) :=
  C1_convolution_true_gradient c1X c1DX c1W c1DW c1Delta c1Bias 1 2 1 2 1 2 1 4 1
    (by decide) (by decide) (by decide) (by decide) (by decide) (by decide)
    (by decide) (by decide)

/-! ## C3: the output shape of a correlation -/

/-- C3 counterexample. With an empty kernel shape the Python negative
slice matrix_shape[:-0] denotes the empty tuple, so correlate_shape drops
every dimension of a one-dimensional matrix shape instead of passing the
non-kernel leading dimensions through unchanged. -/
theorem C3_counterexample :
    correlate_shape [5] [] [1] = some [] ∧ ([] : List ℤ) ≠ [5] := by
  constructor
  · rfl
  · decide

/-- C3, amended with a non-empty kernel shape. For every matrix shape at
least as long as the kernel shape and every stride that broadcasts to the
dimensionality of the kernel with every entry at least one:
correlate_shape keeps the non-kernel leading dimensions unchanged and maps
each correlated dimension to floor((m - k) / s) + 1 clamped below at zero,
which is exactly zero whenever the kernel exceeds the matrix extent. -/
theorem C3_correlate_shape (ms ks ss st : List ℤ)
    (hlen : ks.length ≤ ms.length) (hnd : 1 ≤ ks.length)
    (hbc : broadcastTo ss ks.length = some st) :
    correlate_shape ms ks ss
      = some (ms.take (ms.length - ks.length)
          ++ zipWith3 correlateDim (ms.drop (ms.length - ks.length)) ks st)
    ∧ (∀ m k s : ℤ, correlateDim m k s = max ((m - k).fdiv s + 1) 0)
    ∧ (∀ m k s : ℤ, 1 ≤ s → k ≤ m → correlateDim m k s = (m - k).fdiv s + 1)
    ∧ (∀ m k s : ℤ, 1 ≤ s → m < k → correlateDim m k s = 0) := by
  refine ⟨?_, fun m k s => rfl, ?_, ?_⟩
  · unfold correlate_shape
    rw [if_neg (show ¬ ms.length < ks.length by omega), hbc]
    simp only [if_neg (show ¬ ks.length = 0 by omega)]
  · intro m k s hs hkm
    unfold correlateDim
    have h1 : 0 ≤ (m - k).fdiv s := Int.fdiv_nonneg (by omega) (by omega)
    omega
  · intro m k s hs hmk
    unfold correlateDim
    have h1 : (m - k).fdiv s < 0 := by
      rw [Int.fdiv_eq_ediv (m - k) (show (0:ℤ) ≤ s by omega)]
      exact Int.ediv_neg' (by omega) (by omega)
    omega

/-- Witness for C3 on a repository test vector: shape (123, 5, 5)
correlated with a (1, 2) kernel at stride (2, 1) has shape (123, 3, 4),
and a kernel extent exceeding the matrix extent yields dimension zero. -/
theorem C3_correlate_shape_witness :
    correlate_shape [123, 5, 5] [1, 2] [2, 1]
      = some ([123] ++ zipWith3 correlateDim [5, 5] [1, 2] [2, 1])
    ∧ correlateDim 5 7 1 = 0
    ∧ correlate_shape [123, 5, 5] [1, 2] [2, 1] = some [123, 3, 4] := by
  refine ⟨?_, ?_, by decide⟩
  · exact (C3_correlate_shape [123, 5, 5] [1, 2] [2, 1] [2, 1]
      (by decide) (by decide) rfl).1
  · exact (C3_correlate_shape [123, 5, 5] [1, 2] [2, 1] [2, 1]
      (by decide) (by decide) rfl).2.2.2 5 7 1 (by decide) (by decide)

/-! ## C2: gradient clipping (model/optimizer.py and model.py) -/

/-- The squared Euclidean norm of a column vector of values. -/
def normSq (l : List ℚ) : ℚ := (l.map (fun t => t * t)).sum

/-- Embeds the private norm clip of model/optimizer.py. The clip only
engages when the threshold T is below the largest float32; the reciprocal
of the norm is damped by EPSILON before scaling. The exact vector norm n
of delta is passed explicitly, characterised in the theorems by
n * n = normSq delta and 0 <= n. -/
def clip_norm_2d (delta : List ℚ) (n T : ℚ) : List ℚ :=
  if T < maxFloat32 then
    if n ≥ T then delta.map (fun t => t * (1 / (n + EPSILON)) * T) else delta
  else delta

/-- Embeds Network gradient clip of model.py: the same guard and
threshold test, but the scale is exactly T divided by the norm. -/
def gradient_clip (delta : List ℚ) (n T : ℚ) : List ℚ :=
  if T < maxFloat32 then
    if n ≥ T then delta.map (fun t => t / n * T) else delta
  else delta

lemma normSq_map_mul (l : List ℚ) (c : ℚ) :
    normSq (l.map (fun t => t * c)) = normSq l * (c * c) := by
  induction l with
  | nil => simp [normSq]
  | cons h t ih =>
    simp only [normSq, List.map_cons, List.sum_cons] at ih ⊢
    rw [add_mul, ih]
    ring

/-- C2, amended. Suppose the threshold T is positive and below the largest
float32 and n is the exact norm of delta. When the norm meets or exceeds
the threshold, the clip of model.py returns a positive multiple of delta
of norm exactly T, while the clip of model/optimizer.py returns a positive
multiple of delta whose squared norm is T * T * n * n / (n + EPSILON) ^ 2,
slightly below the threshold; both return delta unchanged when the norm is
below the threshold. -/
theorem C2_gradient_clip (delta : List ℚ) (n T : ℚ)
    (hn : 0 ≤ n) (hnsq : n * n = normSq delta)
    (hT : 0 < T) (hTmax : T < maxFloat32) :
    (T ≤ n → normSq (gradient_clip delta n T) = T * T
      ∧ gradient_clip delta n T = delta.map (fun t => t * (T / n)) ∧ 0 < T / n)
    ∧ (n < T → gradient_clip delta n T = delta)
    ∧ (T ≤ n → clip_norm_2d delta n T = delta.map (fun t => t * (T / (n + EPSILON)))
      ∧ 0 < T / (n + EPSILON)
      ∧ normSq (clip_norm_2d delta n T) * ((n + EPSILON) * (n + EPSILON))
          = T * T * (n * n))
    ∧ (n < T → clip_norm_2d delta n T = delta) := by
  have hEPS : (0:ℚ) < EPSILON := by norm_num [EPSILON]
  refine ⟨?_, ?_, ?_, ?_⟩
  · intro hTn
    have hnpos : 0 < n := lt_of_lt_of_le hT hTn
    have hform : gradient_clip delta n T = delta.map (fun t => t * (T / n)) := by
      unfold gradient_clip
      rw [if_pos hTmax, if_pos hTn]
      exact List.map_congr_left (fun t _ => by field_simp)
    refine ⟨?_, hform, div_pos hT hnpos⟩
    rw [hform, normSq_map_mul, ← hnsq]
    field_simp
  · intro hnT
    unfold gradient_clip
    rw [if_pos hTmax, if_neg (not_le.mpr hnT)]
  · intro hTn
    have hden : 0 < n + EPSILON := by linarith
    have hform : clip_norm_2d delta n T = delta.map (fun t => t * (T / (n + EPSILON))) := by
      unfold clip_norm_2d
      rw [if_pos hTmax, if_pos hTn]
      exact List.map_congr_left (fun t _ => by field_simp)
    refine ⟨hform, div_pos hT hden, ?_⟩
    rw [hform, normSq_map_mul, ← hnsq]
    field_simp
    ring
  · intro hnT
    unfold clip_norm_2d
    rw [if_pos hTmax, if_neg (not_le.mpr hnT)]

/-- Witness for C2 at delta = (3, 4), norm 5, threshold 1. -/
theorem C2_gradient_clip_witness :
    normSq (gradient_clip [3, 4] 5 1) = 1 * 1
    ∧ gradient_clip [3, 4] 5 1 = [3 * ((1:ℚ) / 5), 4 * ((1:ℚ) / 5)]
    ∧ clip_norm_2d [3, 4] 5 1
        = [3 * ((1:ℚ) / (5 + EPSILON)), 4 * ((1:ℚ) / (5 + EPSILON))] := by
  have h := C2_gradient_clip [3, 4] 5 1 (by norm_num)
    (by norm_num [normSq]) (by norm_num) (by norm_num [maxFloat32])
  refine ⟨(h.1 (by norm_num)).1, ?_, ?_⟩
  · rw [(h.1 (by norm_num)).2.1]
    simp
  · rw [(h.2.2.1 (by norm_num)).1]
    simp

/-- C2 counterexample. At delta = (2) with exact norm 2 and threshold 1,
the clip of model/optimizer.py does not return a vector of norm exactly
equal to the threshold: the EPSILON damping of the reciprocal makes the
norm strictly smaller. -/
theorem C2_counterexample :
    (2:ℚ) * 2 = normSq [2] ∧ (0:ℚ) < 1 ∧ (1:ℚ) < maxFloat32 ∧ (1:ℚ) ≤ 2
    ∧ normSq (clip_norm_2d [2] 2 1) ≠ 1 * 1 := by
  refine ⟨by norm_num [normSq], by norm_num, by norm_num [maxFloat32], by norm_num, ?_⟩
  norm_num [clip_norm_2d, normSq, maxFloat32, EPSILON]

/-! ## Pooling (common/vector.py and the Pool layer of model/layer.py) -/

/-- The values of the pool window anchored at output position (i, j),
flattened in row-major order: flat index t corresponds to window
coordinates (t / kw, t % kw), matching the numpy flat order. -/
def windowList (x : Mat) (kh kw sh sw i j : ℕ) : List ℚ :=
  (List.range (kh * kw)).map (fun t => x (i * sh + t / kw) (j * sw + t % kw))

/-- The maximum of a list of values, as numpy max computes it on a
non-empty array. -/
def listMax : List ℚ → ℚ
  | [] => 0
  | v :: vs => vs.foldl max v

/-- Tail-recursive scan giving the flat index of the first occurrence of
the maximum, as numpy argmax computes it: a later element replaces the
running best only when strictly greater. -/
def argmaxAux : List ℚ → ℚ → ℕ → ℕ → ℕ
  | [], _, bi, _ => bi
  | v :: vs, best, bi, ci =>
    if best < v then argmaxAux vs v ci (ci + 1) else argmaxAux vs best bi (ci + 1)

/-- The flat index of the first maximum of a list, numpy argmax. -/
def argmaxFlat : List ℚ → ℕ
  | [] => 0
  | v :: vs => argmaxAux vs v 0 1

/-- Embeds vec.pool: a sliding window view reduced per window, by the
maximum for mode MAX and by the arithmetic mean for mode AVERAGE. The mode
argument is the numeric value of the EPooling member (MAX = 1,
AVERAGE = 2); any other value models a Python object that matches neither
case and raises ValueError. -/
def pool (m : Mat) (kh kw sh sw : ℕ) (mode : ℕ) : Except String Mat :=
  match mode with
  | 1 => .ok (fun i j => listMax (windowList m kh kw sh sw i j))
  | 2 => .ok (fun i j => (windowList m kh kw sh sw i j).sum / ((kh * kw : ℕ) : ℚ))
  | _ => .error "unknown pooling mode specified"

lemma foldl_max_cases (xs : List ℚ) (a : ℚ) :
    xs.foldl max a = a ∨ xs.foldl max a ∈ xs := by
  induction xs generalizing a with
  | nil => exact Or.inl rfl
  | cons y ys ih =>
    rcases ih (max a y) with h | h
    · rcases max_choice a y with hm | hm
      · exact Or.inl (by rw [List.foldl_cons, h, hm])
      · exact Or.inr (by rw [List.foldl_cons, h, hm]; exact List.mem_cons_self y ys)
    · exact Or.inr (List.mem_cons_of_mem y h)

lemma le_foldl_max_init (xs : List ℚ) (a : ℚ) : a ≤ xs.foldl max a := by
  induction xs generalizing a with
  | nil => exact le_refl a
  | cons y ys ih => exact le_trans (le_max_left a y) (ih (max a y))

lemma le_foldl_max_mem (xs : List ℚ) (a v : ℚ) (hv : v ∈ xs) : v ≤ xs.foldl max a := by
  induction xs generalizing a with
  | nil => cases hv
  | cons y ys ih =>
    rcases List.mem_cons.mp hv with h | h
    · subst h
      exact le_trans (le_max_right a v) (le_foldl_max_init ys (max a v))
    · exact ih (max a y) h

lemma listMax_mem (l : List ℚ) (h : l ≠ []) : listMax l ∈ l := by
  cases l with
  | nil => exact absurd rfl h
  | cons v vs =>
    rcases foldl_max_cases vs v with hc | hc
    · rw [listMax, hc]
      exact List.mem_cons_self v vs
    · exact List.mem_cons_of_mem v hc

lemma le_listMax (l : List ℚ) (v : ℚ) (hv : v ∈ l) : v ≤ listMax l := by
  cases l with
  | nil => cases hv
  | cons w ws =>
    rcases List.mem_cons.mp hv with h | h
    · subst h
      exact le_foldl_max_init ws v
    · exact le_foldl_max_mem ws w v h

lemma argmaxAux_range (xs : List ℚ) (best : ℚ) (bi ci : ℕ) :
    argmaxAux xs best bi ci = bi
    ∨ (ci ≤ argmaxAux xs best bi ci ∧ argmaxAux xs best bi ci < ci + xs.length) := by
  induction xs generalizing best bi ci with
  | nil => exact Or.inl rfl
  | cons y ys ih =>
    rw [argmaxAux]
    by_cases hb : best < y
    · rw [if_pos hb]
      rcases ih y ci (ci + 1) with h | h
      · exact Or.inr (by rw [h]; simp)
      · exact Or.inr ⟨by omega, by simp only [List.length_cons]; omega⟩
    · rw [if_neg hb]
      rcases ih best bi (ci + 1) with h | h
      · exact Or.inl h
      · exact Or.inr ⟨by omega, by simp only [List.length_cons]; omega⟩

lemma argmaxFlat_lt_length (l : List ℚ) (h : l ≠ []) : argmaxFlat l < l.length := by
  cases l with
  | nil => exact absurd rfl h
  | cons v vs =>
    rw [argmaxFlat]
    rcases argmaxAux_range vs v 0 1 with hc | hc
    · rw [hc]
      simp
    · simp only [List.length_cons]
      omega

lemma argmaxAux_getD (xs full : List ℚ) (best : ℚ) (bi ci : ℕ)
    (hbi : full.getD bi 0 = best) (hdrop : full.drop ci = xs) :
    full.getD (argmaxAux xs best bi ci) 0 = xs.foldl max best := by
  induction xs generalizing best bi ci with
  | nil => simpa [argmaxAux] using hbi
  | cons y ys ih =>
    have hy : full.getD ci 0 = y := by
      have h1 : full.getD ci 0 = (full.drop ci).getD 0 0 := by
        rw [List.getD_eq_getElem?_getD, List.getD_eq_getElem?_getD,
          List.getElem?_drop, Nat.add_zero]
      rw [h1, hdrop]
      rfl
    have hdrop2 : full.drop (ci + 1) = ys := by
      rw [← List.drop_drop, hdrop]
      rfl
    rw [argmaxAux, List.foldl_cons]
    by_cases hb : best < y
    · rw [if_pos hb, max_eq_right (le_of_lt hb)]
      exact ih y ci (ci + 1) hy hdrop2
    · rw [if_neg hb, max_eq_left (not_lt.mp hb)]
      exact ih best bi (ci + 1) hbi hdrop2

/-- The element at the argmax index is the maximum of the list. -/
lemma argmaxFlat_getD (l : List ℚ) (h : l ≠ []) :
    l.getD (argmaxFlat l) 0 = listMax l := by
  cases l with
  | nil => exact absurd rfl h
  | cons v vs =>
    rw [argmaxFlat, listMax]
    exact argmaxAux_getD vs (v :: vs) v 0 1 rfl rfl

lemma argmaxAux_first (full : List ℚ) : ∀ (xs : List ℚ) (best : ℚ) (bi ci : ℕ),
    full.getD bi 0 = best → full.drop ci = xs →
    (∀ s, s < ci → full.getD s 0 ≤ best) →
    (∀ s, s < bi → full.getD s 0 < best) →
    ∀ s, s < argmaxAux xs best bi ci →
      full.getD s 0 < full.getD (argmaxAux xs best bi ci) 0 := by
  intro xs
  induction xs with
  | nil =>
    intro best bi ci hbi hdrop hle hlt s hs
    rw [argmaxAux] at hs ⊢
    rw [hbi]
    exact hlt s hs
  | cons y ys ih =>
    intro best bi ci hbi hdrop hle hlt s hs
    have hy : full.getD ci 0 = y := by
      have h1 : full.getD ci 0 = (full.drop ci).getD 0 0 := by
        rw [List.getD_eq_getElem?_getD, List.getD_eq_getElem?_getD,
          List.getElem?_drop, Nat.add_zero]
      rw [h1, hdrop]
      rfl
    have hdrop2 : full.drop (ci + 1) = ys := by
      rw [← List.drop_drop, hdrop]
      rfl
    rw [argmaxAux] at hs ⊢
    by_cases hb : best < y
    · rw [if_pos hb] at hs ⊢
      refine ih y ci (ci + 1) hy hdrop2 ?_ ?_ s hs
      · intro s2 hs2
        rcases Nat.lt_succ_iff_lt_or_eq.mp hs2 with h2 | h2
        · exact le_of_lt (lt_of_le_of_lt (hle s2 h2) hb)
        · rw [h2, hy]
      · intro s2 hs2
        exact lt_of_le_of_lt (hle s2 hs2) hb
    · rw [if_neg hb] at hs ⊢
      refine ih best bi (ci + 1) hbi hdrop2 ?_ hlt s hs
      intro s2 hs2
      rcases Nat.lt_succ_iff_lt_or_eq.mp hs2 with h2 | h2
      · exact hle s2 h2
      · rw [h2, hy]
        exact not_lt.mp hb

/-- The argmax index is the first occurrence of the maximum: every earlier
element is strictly smaller, matching the numpy argmax tie-breaking. -/
lemma argmaxFlat_first (l : List ℚ) (s : ℕ) (hs : s < argmaxFlat l) :
    l.getD s 0 < l.getD (argmaxFlat l) 0 := by
  cases l with
  | nil => cases hs
  | cons v vs =>
    rw [argmaxFlat] at hs ⊢
    refine argmaxAux_first (v :: vs) vs v 0 1 rfl rfl ?_ (fun s2 hs2 => by cases hs2) s hs
    intro s2 hs2
    have h2 : s2 = 0 := by omega
    rw [h2]
    exact le_refl v

lemma windowList_length (x : Mat) (kh kw sh sw i j : ℕ) :
    (windowList x kh kw sh sw i j).length = kh * kw := by
  simp [windowList]

lemma windowList_ne_nil (x : Mat) (kh kw sh sw i j : ℕ)
    (hkh : 1 ≤ kh) (hkw : 1 ≤ kw) : windowList x kh kw sh sw i j ≠ [] := by
  intro hc
  have := windowList_length x kh kw sh sw i j
  rw [hc] at this
  simp at this
  omega

/-- C8. The pool operation fails with the invalid-argument error exactly
on a mode that is neither MAX nor AVERAGE, and for the two supported
modes it returns per output position the maximum, respectively the
arithmetic mean, of the corresponding sliding window. -/
theorem C8_pool (m : Mat) (kh kw sh sw i j mode : ℕ)
    (hkh : 1 ≤ kh) (hkw : 1 ≤ kw) :
    (∀ f, pool m kh kw sh sw 1 = .ok f →
      f i j ∈ windowList m kh kw sh sw i j
        ∧ ∀ v ∈ windowList m kh kw sh sw i j, v ≤ f i j)
    ∧ (∀ f, pool m kh kw sh sw 2 = .ok f →
      f i j * ((kh * kw : ℕ) : ℚ) = (windowList m kh kw sh sw i j).sum)
    ∧ (mode ≠ 1 → mode ≠ 2 →
      pool m kh kw sh sw mode = .error "unknown pooling mode specified") := by
  refine ⟨?_, ?_, ?_⟩
  · intro f hf
    have hfe : (fun i j => listMax (windowList m kh kw sh sw i j)) = f :=
      Except.ok.inj hf
    subst hfe
    exact ⟨listMax_mem _ (windowList_ne_nil m kh kw sh sw i j hkh hkw),
      fun v hv => le_listMax _ v hv⟩
  · intro f hf
    have hfe : (fun i j => (windowList m kh kw sh sw i j).sum / ((kh * kw : ℕ) : ℚ)) = f :=
      Except.ok.inj hf
    subst hfe
    have hne : ((kh * kw : ℕ) : ℚ) ≠ 0 := by
      have : 0 < kh * kw := Nat.mul_pos hkh hkw
      exact_mod_cast Nat.pos_iff_ne_zero.mp this
    exact div_mul_cancel₀ _ hne
  · intro h1 h2
    match mode, h1, h2 with
    | 0, _, _ => rfl
    | (n + 3), _, _ => rfl
    | 1, h1, _ => exact absurd rfl h1
    | 2, _, h2 => exact absurd rfl h2

def c8M : Mat := fun i j => (i : ℚ) + 2 * (j : ℚ)

/-- Witness for C8 on a concrete 2 by 2 window. -/
theorem C8_pool_witness :
    ((fun i j => listMax (windowList c8M 2 2 2 2 i j)) 0 0 ∈ windowList c8M 2 2 2 2 0 0
      ∧ ∀ v ∈ windowList c8M 2 2 2 2 0 0,
          v ≤ (fun i j => listMax (windowList c8M 2 2 2 2 i j)) 0 0)
    ∧ listMax (windowList c8M 2 2 2 2 0 0) = 3
    ∧ pool c8M 2 2 2 2 7 = .error "unknown pooling mode specified" := by
  have h := C8_pool c8M 2 2 2 2 0 0 7 (by decide) (by decide)
  refine ⟨h.1 (fun i j => listMax (windowList c8M 2 2 2 2 i j)) rfl,
    ?_, h.2.2 (by decide) (by decide)⟩
  simp only [windowList, listMax, c8M]
  norm_num [List.range_succ, max_def]

/-! ## The Pool layer backward pass (model/layer.py) -/

namespace Pool

/-- The output positions of the pooled map in row-major order, as
numpy.ndindex enumerates them. -/
def outIndices (oh ow : ℕ) : List (ℕ × ℕ) :=
  (List.range (oh * ow)).map (fun t => (t / ow, t % ow))

/-- One iteration of the MAX branch of Pool.backpropagate: the upstream
gradient of output position o is written (assigned, not accumulated) to
the input cell holding the first maximum of the window of o. -/
def stepMax (x δ : Mat) (kh kw sh sw : ℕ) (g : Mat) (o : ℕ × ℕ) : Mat :=
  fun u v =>
    if u = o.1 * sh + argmaxFlat (windowList x kh kw sh sw o.1 o.2) / kw ∧
        v = o.2 * sw + argmaxFlat (windowList x kh kw sh sw o.1 o.2) % kw
    then δ o.1 o.2 else g u v

/-- One iteration of the AVERAGE branch of Pool.backpropagate: the
upstream gradient of output position o, scaled by the reciprocal of the
window element count, is added to every input cell of the window of o. -/
def stepAvg (δ : Mat) (kh kw sh sw : ℕ) (g : Mat) (o : ℕ × ℕ) : Mat :=
  fun u v =>
    if o.1 * sh ≤ u ∧ u < o.1 * sh + kh ∧ o.2 * sw ≤ v ∧ v < o.2 * sw + kw
    then g u v + δ o.1 o.2 * (1 / ((kh * kw : ℕ) : ℚ)) else g u v

/-- Embeds Pool.backpropagate: starting from a zero gradient, the pool
windows are visited in row-major output order and the upstream gradient is
scattered per the pooling mode (MAX = 1, AVERAGE = 2, anything else
raises). -/
def backpropagate (x δ : Mat) (kh kw sh sw oh ow : ℕ) (mode : ℕ) : Except String Mat :=
  match mode with
  | 1 => .ok ((outIndices oh ow).foldl (stepMax x δ kh kw sh sw) (fun _ _ => 0))
  | 2 => .ok ((outIndices oh ow).foldl (stepAvg δ kh kw sh sw) (fun _ _ => 0))
  | _ => .error "unknown pooling mode specified"

lemma mem_outIndices (oh ow i j : ℕ) (hi : i < oh) (hj : j < ow) :
    (i, j) ∈ outIndices oh ow := by
  refine List.mem_map.mpr ⟨i * ow + j, List.mem_range.mpr ?_, ?_⟩
  · calc i * ow + j < i * ow + ow := by omega
      _ = (i + 1) * ow := by ring
      _ ≤ oh * ow := Nat.mul_le_mul_right ow hi
  · have h1 : (i * ow + j) / ow = i := by
      rw [Nat.mul_comm i ow, Nat.mul_add_div (by omega)]
      rw [Nat.div_eq_of_lt hj, Nat.add_zero]
    have h2 : (i * ow + j) % ow = j := by
      rw [Nat.mul_comm i ow, Nat.mul_add_mod, Nat.mod_eq_of_lt hj]
    rw [h1, h2]

lemma outIndices_nodup (oh ow : ℕ) : (outIndices oh ow).Nodup := by
  apply List.Nodup.map_on _ (List.nodup_range _)
  intro t ht s hs heq
  have h1 : t / ow = s / ow := congrArg Prod.fst heq
  have h2 : t % ow = s % ow := congrArg Prod.snd heq
  rw [← Nat.div_add_mod t ow, h1, h2, Nat.div_add_mod]

lemma foldl_unchanged (step : Mat → ℕ × ℕ → Mat) (L : List (ℕ × ℕ)) (g : Mat) (u v : ℕ)
    (h : ∀ gm o, o ∈ L → step gm o u v = gm u v) : (L.foldl step g) u v = g u v := by
  induction L generalizing g with
  | nil => rfl
  | cons o os ih =>
    rw [List.foldl_cons]
    rw [ih (step g o) (fun gm o2 ho2 => h gm o2 (List.mem_cons_of_mem o ho2))]
    exact h g o (List.mem_cons_self o os)

/-- Two stride bins intersect only at equal bin index when the window does
not exceed the stride. -/
lemma window_row_eq (m1 m2 a s k : ℕ) (hks : k ≤ s) (ha : a < k)
    (h1 : m2 * s ≤ m1 * s + a) (h2 : m1 * s + a < m2 * s + k) : m1 = m2 := by
  rcases Nat.lt_trichotomy m1 m2 with h | h | h
  · have hmul := Nat.mul_le_mul_right s (show m1 + 1 ≤ m2 by omega)
    have he : (m1 + 1) * s = m1 * s + s := by ring
    omega
  · exact h
  · have hmul := Nat.mul_le_mul_right s (show m2 + 1 ≤ m1 by omega)
    have he : (m2 + 1) * s = m2 * s + s := by ring
    omega

lemma argmaxFlat_window_lt (x : Mat) (kh kw sh sw i2 j2 : ℕ)
    (hkh : 1 ≤ kh) (hkw : 1 ≤ kw) :
    argmaxFlat (windowList x kh kw sh sw i2 j2) / kw < kh
      ∧ argmaxFlat (windowList x kh kw sh sw i2 j2) % kw < kw := by
  have hlt : argmaxFlat (windowList x kh kw sh sw i2 j2) < kh * kw := by
    have h := argmaxFlat_lt_length (windowList x kh kw sh sw i2 j2)
      (windowList_ne_nil x kh kw sh sw i2 j2 hkh hkw)
    rwa [windowList_length] at h
  exact ⟨(Nat.div_lt_iff_lt_mul (by omega)).mpr hlt, Nat.mod_lt _ (by omega)⟩

lemma stepMax_untouched (x δ : Mat) (kh kw sh sw : ℕ)
    (hkh : 1 ≤ kh) (hkw : 1 ≤ kw) (hsh : kh ≤ sh) (hsw : kw ≤ sw)
    (g : Mat) (o : ℕ × ℕ) (i j a b : ℕ) (ha : a < kh) (hb : b < kw)
    (hne : o ≠ (i, j)) :
    stepMax x δ kh kw sh sw g o (i * sh + a) (j * sw + b)
      = g (i * sh + a) (j * sw + b) := by
  unfold stepMax
  rw [if_neg]
  intro ⟨hu, hv⟩
  have hab := argmaxFlat_window_lt x kh kw sh sw o.1 o.2 hkh hkw
  have hrow : i = o.1 := by
    refine window_row_eq i o.1 a sh kh hsh ha ?_ ?_
    · rw [hu]; exact Nat.le_add_right _ _
    · rw [hu]; exact Nat.add_lt_add_left hab.1 _
  have hcol : j = o.2 := by
    refine window_row_eq j o.2 b sw kw hsw hb ?_ ?_
    · rw [hv]; exact Nat.le_add_right _ _
    · rw [hv]; exact Nat.add_lt_add_left hab.2 _
  exact hne (Prod.ext hrow.symm hcol.symm)

lemma stepAvg_untouched (δ : Mat) (kh kw sh sw : ℕ)
    (hsh : kh ≤ sh) (hsw : kw ≤ sw)
    (g : Mat) (o : ℕ × ℕ) (i j a b : ℕ) (ha : a < kh) (hb : b < kw)
    (hne : o ≠ (i, j)) :
    stepAvg δ kh kw sh sw g o (i * sh + a) (j * sw + b)
      = g (i * sh + a) (j * sw + b) := by
  unfold stepAvg
  rw [if_neg]
  intro ⟨hc1, hc2, hc3, hc4⟩
  have hrow : i = o.1 := window_row_eq i o.1 a sh kh hsh ha hc1 hc2
  have hcol : j = o.2 := window_row_eq j o.2 b sw kw hsw hb hc3 hc4
  exact hne (Prod.ext hrow.symm hcol.symm)

/-- Pointwise value of the MAX backward fold inside the window of an
output position that occurs once in the iteration order: the upstream
gradient sits at the cell of the first window maximum and every other
window cell keeps its starting value of zero. -/
lemma foldl_max_pointwise (x δ : Mat) (kh kw sh sw : ℕ)
    (hkh : 1 ≤ kh) (hkw : 1 ≤ kw) (hsh : kh ≤ sh) (hsw : kw ≤ sw)
    (i j : ℕ) (L : List (ℕ × ℕ)) (hmem : (i, j) ∈ L) (hnd : L.Nodup)
    (g : Mat) (hg : ∀ a b, a < kh → b < kw → g (i * sh + a) (j * sw + b) = 0)
    (a b : ℕ) (ha : a < kh) (hb : b < kw) :
    (L.foldl (stepMax x δ kh kw sh sw) g) (i * sh + a) (j * sw + b)
      = if a = argmaxFlat (windowList x kh kw sh sw i j) / kw
          ∧ b = argmaxFlat (windowList x kh kw sh sw i j) % kw
        then δ i j else 0 := by
  induction L generalizing g with
  | nil => cases hmem
  | cons o os ih =>
    rw [List.foldl_cons]
    by_cases ho : o = (i, j)
    · subst ho
      have hnotin : (i, j) ∉ os := (List.nodup_cons.mp hnd).1
      rw [foldl_unchanged (stepMax x δ kh kw sh sw) os _ _ _
        (fun gm o2 ho2 => stepMax_untouched x δ kh kw sh sw hkh hkw hsh hsw gm o2
          i j a b ha hb (fun hc => hnotin (hc ▸ ho2)))]
      unfold stepMax
      dsimp only
      by_cases hc : a = argmaxFlat (windowList x kh kw sh sw i j) / kw
        ∧ b = argmaxFlat (windowList x kh kw sh sw i j) % kw
      · rw [if_pos (by exact ⟨by rw [hc.1], by rw [hc.2]⟩), if_pos hc]
      · rw [if_neg, if_neg hc]
        · exact hg a b ha hb
        · intro ⟨h1, h2⟩
          exact hc ⟨Nat.add_left_cancel h1, Nat.add_left_cancel h2⟩
    · have hmem2 : (i, j) ∈ os := by
        rcases List.mem_cons.mp hmem with h | h
        · exact absurd h.symm ho
        · exact h
      refine ih hmem2 (List.nodup_cons.mp hnd).2 (stepMax x δ kh kw sh sw g o) ?_
      intro a2 b2 ha2 hb2
      rw [stepMax_untouched x δ kh kw sh sw hkh hkw hsh hsw g o i j a2 b2 ha2 hb2
        (fun hc => ho hc)]
      exact hg a2 b2 ha2 hb2

/-- Pointwise value of the AVERAGE backward fold inside the window of an
output position occurring once in the iteration order: the scaled upstream
gradient is added exactly once to every window cell. -/
lemma foldl_avg_pointwise (x δ : Mat) (kh kw sh sw : ℕ)
    (hkh : 1 ≤ kh) (hkw : 1 ≤ kw) (hsh : kh ≤ sh) (hsw : kw ≤ sw)
    (i j : ℕ) (L : List (ℕ × ℕ)) (hmem : (i, j) ∈ L) (hnd : L.Nodup)
    (g : Mat) (a b : ℕ) (ha : a < kh) (hb : b < kw) :
    (L.foldl (stepAvg δ kh kw sh sw) g) (i * sh + a) (j * sw + b)
      = g (i * sh + a) (j * sw + b) + δ i j * (1 / ((kh * kw : ℕ) : ℚ)) := by
  induction L generalizing g with
  | nil => cases hmem
  | cons o os ih =>
    rw [List.foldl_cons]
    by_cases ho : o = (i, j)
    · subst ho
      have hnotin : (i, j) ∉ os := (List.nodup_cons.mp hnd).1
      rw [foldl_unchanged (stepAvg δ kh kw sh sw) os _ _ _
        (fun gm o2 ho2 => stepAvg_untouched δ kh kw sh sw hsh hsw gm o2
          i j a b ha hb (fun hc => hnotin (hc ▸ ho2)))]
      unfold stepAvg
      dsimp only
      rw [if_pos ⟨Nat.le_add_right _ _, Nat.add_lt_add_left ha _,
        Nat.le_add_right _ _, Nat.add_lt_add_left hb _⟩]
    · have hmem2 : (i, j) ∈ os := by
        rcases List.mem_cons.mp hmem with h | h
        · exact absurd h.symm ho
        · exact h
      rw [ih hmem2 (List.nodup_cons.mp hnd).2 (stepAvg δ kh kw sh sw g o)]
      rw [stepAvg_untouched δ kh kw sh sw hsh hsw g o i j a b ha hb (fun hc => ho hc)]

end Pool

/-- C5, amended with non-overlapping pool windows (stride at least the
window extent per dimension, which is the default configuration of the
layer and the precondition for the writable strided view it scatters
into). For every output position with unique window maxima: in max mode
the returned gradient sums over that window to exactly the upstream
gradient, the whole gradient sitting at the first-maximum cell; in
average mode the gradient within the window is uniformly
delta / window_size and sums to delta. For overlapping windows the
original claim fails, see the counterexample. -/
theorem C5_pool_backpropagate (x δ : Mat) (kh kw sh sw oh ow i j a b : ℕ)
    (hkh : 1 ≤ kh) (hkw : 1 ≤ kw) (hsh : kh ≤ sh) (hsw : kw ≤ sw)
    (hi : i < oh) (hj : j < ow) (ha : a < kh) (hb : b < kw)
    (hunique : ∀ i2, i2 < oh → ∀ j2, j2 < ow →
      (windowList x kh kw sh sw i2 j2).count
        (listMax (windowList x kh kw sh sw i2 j2)) = 1) :
    ((Pool.backpropagate x δ kh kw sh sw oh ow 1).map
        (fun r => ∑ a2 ∈ Finset.range kh, ∑ b2 ∈ Finset.range kw,
          r (i * sh + a2) (j * sw + b2)) = .ok (δ i j))
    ∧ ((Pool.backpropagate x δ kh kw sh sw oh ow 1).map
        (fun r => r (i * sh + argmaxFlat (windowList x kh kw sh sw i j) / kw)
          (j * sw + argmaxFlat (windowList x kh kw sh sw i j) % kw)) = .ok (δ i j))
    ∧ ((Pool.backpropagate x δ kh kw sh sw oh ow 2).map
        (fun r => r (i * sh + a) (j * sw + b))
      = .ok (δ i j * (1 / ((kh * kw : ℕ) : ℚ))))
    ∧ ((Pool.backpropagate x δ kh kw sh sw oh ow 2).map
        (fun r => ∑ a2 ∈ Finset.range kh, ∑ b2 ∈ Finset.range kw,
          r (i * sh + a2) (j * sw + b2)) = .ok (δ i j))
    ∧ ((windowList x kh kw sh sw i j).getD
          (argmaxFlat (windowList x kh kw sh sw i j)) 0
        = listMax (windowList x kh kw sh sw i j))
    ∧ (∀ s, s < argmaxFlat (windowList x kh kw sh sw i j) →
        (windowList x kh kw sh sw i j).getD s 0
          < listMax (windowList x kh kw sh sw i j)) := by
  have hmem := Pool.mem_outIndices oh ow i j hi hj
  have hnd := Pool.outIndices_nodup oh ow
  have hzero : ∀ a2 b2 : ℕ, a2 < kh → b2 < kw →
      (fun _ _ => (0:ℚ)) (i * sh + a2) (j * sw + b2) = 0 := fun _ _ _ _ => rfl
  have hargs := Pool.argmaxFlat_window_lt x kh kw sh sw i j hkh hkw
  have hmax := argmaxFlat_getD (windowList x kh kw sh sw i j)
    (windowList_ne_nil x kh kw sh sw i j hkh hkw)
  refine ⟨?_, ?_, ?_, ?_, hmax, fun s hs => hmax ▸ argmaxFlat_first _ s hs⟩
  · simp only [Pool.backpropagate, Except.map, Except.ok.injEq]
    rw [Finset.sum_congr rfl (fun a2 ha2 => Finset.sum_congr rfl (fun b2 hb2 =>
      Pool.foldl_max_pointwise x δ kh kw sh sw hkh hkw hsh hsw i j
        (Pool.outIndices oh ow) hmem hnd (fun _ _ => 0) hzero a2 b2
        (Finset.mem_range.mp ha2) (Finset.mem_range.mp hb2)))]
    exact sum_ite_eq_pair kh kw _ _ (fun _ _ => δ i j) hargs.1 hargs.2
  · simp only [Pool.backpropagate, Except.map, Except.ok.injEq]
    rw [Pool.foldl_max_pointwise x δ kh kw sh sw hkh hkw hsh hsw i j
      (Pool.outIndices oh ow) hmem hnd (fun _ _ => 0) hzero _ _ hargs.1 hargs.2]
    exact if_pos ⟨rfl, rfl⟩
  · simp only [Pool.backpropagate, Except.map, Except.ok.injEq]
    rw [Pool.foldl_avg_pointwise x δ kh kw sh sw hkh hkw hsh hsw i j
      (Pool.outIndices oh ow) hmem hnd (fun _ _ => 0) a b ha hb]
    exact zero_add _
  · simp only [Pool.backpropagate, Except.map, Except.ok.injEq]
    rw [Finset.sum_congr rfl (fun a2 ha2 => Finset.sum_congr rfl (fun b2 hb2 => by
      rw [Pool.foldl_avg_pointwise x δ kh kw sh sw hkh hkw hsh hsw i j
        (Pool.outIndices oh ow) hmem hnd (fun _ _ => 0) a2 b2
        (Finset.mem_range.mp ha2) (Finset.mem_range.mp hb2), zero_add]))]
    rw [Finset.sum_congr rfl (fun a2 _ => Finset.sum_const _),
      Finset.sum_const, Finset.card_range, Finset.card_range,
      smul_smul, nsmul_eq_mul]
    have hne : ((kh * kw : ℕ) : ℚ) ≠ 0 := by
      have : 0 < kh * kw := Nat.mul_pos hkh hkw
      exact_mod_cast Nat.pos_iff_ne_zero.mp this
    push_cast at hne ⊢
    field_simp

def c5X : Mat := fun i j => if i = 0 ∧ j = 1 then 1 else 0

def c5D : Mat := fun i j => if j = 0 then (5:ℚ) else 7

/-- C5 counterexample. A 1 by 2 max pool of stride 1 over a 1 by 3 input
has overlapping windows; both windows have a unique maximum (the shared
middle cell), yet the second visited window overwrites the scattered
gradient of the first, so the gradient summed over the first window is the
upstream gradient of the second window, not its own. -/
theorem C5_counterexample :
    ((windowList c5X 1 2 1 1 0 0).count (listMax (windowList c5X 1 2 1 1 0 0)) = 1)
    ∧ ((windowList c5X 1 2 1 1 0 1).count (listMax (windowList c5X 1 2 1 1 0 1)) = 1)
    ∧ ((Pool.backpropagate c5X c5D 1 2 1 1 1 2 1).map
        (fun r => ∑ a2 ∈ Finset.range 1, ∑ b2 ∈ Finset.range 2,
          r (0 * 1 + a2) (0 * 1 + b2)) = .ok 7)
    ∧ c5D 0 0 = 5 ∧ (7 : ℚ) ≠ 5 := by
  have w00 : windowList c5X 1 2 1 1 0 0 = [0, 1] := by decide
  have w01 : windowList c5X 1 2 1 1 0 1 = [1, 0] := by decide
  have m00 : listMax [(0:ℚ), 1] = 1 := by
    simp [listMax, max_def]
  have m01 : listMax [(1:ℚ), 0] = 1 := by
    simp [listMax, max_def]
  refine ⟨by rw [w00, m00]; decide, by rw [w01, m01]; decide, ?_, by decide, by norm_num⟩
  have hout : Pool.outIndices 1 2 = [(0, 0), (0, 1)] := by decide
  have harg0 : argmaxFlat (windowList c5X 1 2 1 1 0 0) = 1 := by rw [w00]; decide
  have harg1 : argmaxFlat (windowList c5X 1 2 1 1 0 1) = 0 := by rw [w01]; decide
  simp only [Pool.backpropagate, Except.map, Except.ok.injEq]
  rw [hout]
  simp only [List.foldl_cons, List.foldl_nil, Pool.stepMax, harg0, harg1]
  rw [Finset.sum_range_one, Finset.sum_range_succ, Finset.sum_range_one]
  norm_num [c5D]

/-- Witness for C5 at a 1 by 1 pool over a 2 by 2 map, where the windows
are disjoint and every window maximum is trivially unique. -/
theorem C5_pool_backpropagate_witness :
    ((Pool.backpropagate c5X c5D 1 1 1 1 2 2 1).map
        (fun r => ∑ a2 ∈ Finset.range 1, ∑ b2 ∈ Finset.range 1,
          r (0 * 1 + a2) (0 * 1 + b2)) = .ok (c5D 0 0))
    ∧ ((Pool.backpropagate c5X c5D 1 1 1 1 2 2 1).map
        (fun r => r (0 * 1 + argmaxFlat (windowList c5X 1 1 1 1 0 0) / 1)
          (0 * 1 + argmaxFlat (windowList c5X 1 1 1 1 0 0) % 1)) = .ok (c5D 0 0))
    ∧ ((Pool.backpropagate c5X c5D 1 1 1 1 2 2 2).map
        (fun r => r (0 * 1 + 0) (0 * 1 + 0))
      = .ok (c5D 0 0 * (1 / ((1 * 1 : ℕ) : ℚ))))
    ∧ ((Pool.backpropagate c5X c5D 1 1 1 1 2 2 2).map
        (fun r => ∑ a2 ∈ Finset.range 1, ∑ b2 ∈ Finset.range 1,
          r (0 * 1 + a2) (0 * 1 + b2)) = .ok (c5D 0 0)) := by
  have h := C5_pool_backpropagate c5X c5D 1 1 1 1 2 2 0 0 0 0
    (by decide) (by decide) (by decide) (by decide)
    (by decide) (by decide) (by decide) (by decide) (by decide)
  exact ⟨h.1, h.2.1, h.2.2.1, h.2.2.2.1⟩

/-! ## The cross-entropy cost (model.py) -/

namespace CrossEntropy

/-- Embeds CrossEntropy adaptation of the activation: numpy clip of a into
the closed interval from EPSILON to 1 - EPSILON, computed as the minimum
against the upper bound of the maximum against the lower bound. -/
def adapt_a (a : ℚ) : ℚ := min (1 - EPSILON) (max EPSILON a)

/-- Embeds CrossEntropy.eval. The logarithm of the library floats is an
arbitrary real function lg; the cost applies it only to values produced by
adapt_a and their reflections at one. -/
def eval (lg : ℚ → ℚ) (a y : List ℚ) : ℚ :=
  (List.zipWith (fun A yv => -(yv * lg A) - (1 - yv) * lg (1 - A))
    (a.map adapt_a) y).sum

/-- Embeds CrossEntropy.derived_eval: elementwise (a - y) / (a * (1 - a))
on the adapted activation. -/
def derived_eval (a y : List ℚ) : List ℚ :=
  List.zipWith (fun A yv => (A - yv) / (A * (1 - A))) (a.map adapt_a) y

end CrossEntropy

/-- C9. Both cross-entropy evaluations clip the activation into
the closed interval from EPSILON to 1 - EPSILON before any logarithm or
division: eval and derived_eval are (definitionally) functions of the
adapted activation only, every adapted value and its reflection at one is
at least EPSILON and strictly inside the open unit interval, and the
denominator a * (1 - a) of derived_eval is bounded away from zero, so in
exact arithmetic both operations are defined (finite) for every input. -/
theorem C9_cross_entropy_guard (lg : ℚ → ℚ) (a y : List ℚ) :
    (CrossEntropy.eval lg a y
      = (List.zipWith (fun A yv => -(yv * lg A) - (1 - yv) * lg (1 - A))
          (a.map CrossEntropy.adapt_a) y).sum)
    ∧ (CrossEntropy.derived_eval a y
      = List.zipWith (fun A yv => (A - yv) / (A * (1 - A)))
          (a.map CrossEntropy.adapt_a) y)
    ∧ (∀ v : ℚ, EPSILON ≤ CrossEntropy.adapt_a v
        ∧ CrossEntropy.adapt_a v ≤ 1 - EPSILON
        ∧ 0 < CrossEntropy.adapt_a v
        ∧ 0 < 1 - CrossEntropy.adapt_a v
        ∧ CrossEntropy.adapt_a v * (1 - CrossEntropy.adapt_a v) ≠ 0) := by
  have hE1 : (0:ℚ) < EPSILON := by norm_num [EPSILON]
  have hE2 : EPSILON ≤ (1:ℚ) - EPSILON := by norm_num [EPSILON]
  refine ⟨rfl, rfl, fun v => ?_⟩
  have hlo : EPSILON ≤ CrossEntropy.adapt_a v :=
    le_min hE2 (le_max_left EPSILON v)
  have hhi : CrossEntropy.adapt_a v ≤ 1 - EPSILON := min_le_left _ _
  have hpos : 0 < CrossEntropy.adapt_a v := lt_of_lt_of_le hE1 hlo
  have hpos2 : 0 < 1 - CrossEntropy.adapt_a v := by
    have : CrossEntropy.adapt_a v < 1 := lt_of_le_of_lt hhi (by norm_num [EPSILON])
    linarith
  exact ⟨hlo, hhi, hpos, hpos2, ne_of_gt (mul_pos hpos hpos2)⟩

/-! ## Parameter replacement (model/layer.py and model.py) -/

/-- A numpy array: a shape tuple together with the flat element data. -/
structure NArray where
  shape : List ℕ
  data : List ℚ
deriving DecidableEq

/-- Embeds numpy reshape: succeeds exactly when the element count matches
the product of the requested shape, keeping the flat data. -/
def reshape (a : NArray) (s : List ℕ) : Except String NArray :=
  if a.data.length = s.prod then .ok ⟨s, a.data⟩ else .error "cannot reshape array"

/-- The state of a FullyConnected layer relevant to update_params. -/
structure FCLayer where
  inputShape : List ℕ
  outputShape : List ℕ
  bias : NArray
  weight : NArray
deriving DecidableEq

namespace FullyConnected

/-- Embeds FullyConnected.update_params: the source asserts only that the
existing parameters have the real dtype (always true in this model) and
stores the given arrays without any shape validation. -/
def update_params (l : FCLayer) (bias weight : NArray) : FCLayer :=
  { l with bias := bias, weight := weight }

end FullyConnected

/-- The state of a Convolution layer relevant to update_params. -/
structure ConvLayer where
  bias : NArray
  weight : NArray
deriving DecidableEq

namespace Convolution

/-- Embeds Convolution.update_params: the given arrays are reshaped to the
shapes of the existing parameters, which raises exactly when the element
count differs from the existing parameter size. -/
def update_params (l : ConvLayer) (bias weight : NArray) : Except String ConvLayer :=
  match reshape bias l.bias.shape with
  | .error e => .error e
  | .ok b2 =>
    match reshape weight l.weight.shape with
    | .error e => .error e
    | .ok w2 => .ok { l with bias := b2, weight := w2 }

end Convolution

/-- C7, amended. update_params replaces both parameter tensors together,
but the shape handling differs from the claim: FullyConnected stores the
given arrays as-is with no shape validation at all, and Convolution
reshapes the given arrays to the existing parameter shapes, failing
exactly when the element count differs (a same-size array of a different
shape is accepted); on success the stored data equals the given data. -/
theorem C7_update_params (l : FCLayer) (cl : ConvLayer) (b w : NArray) :
    ((FullyConnected.update_params l b w).bias = b
      ∧ (FullyConnected.update_params l b w).weight = w
      ∧ (FullyConnected.update_params l b w).inputShape = l.inputShape
      ∧ (FullyConnected.update_params l b w).outputShape = l.outputShape)
    ∧ (b.data.length = cl.bias.shape.prod → w.data.length = cl.weight.shape.prod →
        Convolution.update_params cl b w
          = .ok ⟨⟨cl.bias.shape, b.data⟩, ⟨cl.weight.shape, w.data⟩⟩)
    ∧ (b.data.length ≠ cl.bias.shape.prod →
        Convolution.update_params cl b w = .error "cannot reshape array")
    ∧ (b.data.length = cl.bias.shape.prod → w.data.length ≠ cl.weight.shape.prod →
        Convolution.update_params cl b w = .error "cannot reshape array") := by
  refine ⟨⟨rfl, rfl, rfl, rfl⟩, ?_, ?_, ?_⟩
  · intro hb hw
    unfold Convolution.update_params reshape
    rw [if_pos hb, if_pos hw]
  · intro hb
    unfold Convolution.update_params reshape
    rw [if_neg hb]
  · intro hb hw
    unfold Convolution.update_params reshape
    rw [if_pos hb, if_neg hw]

def c7FC : FCLayer := ⟨[1, 2, 1], [1, 2, 1], ⟨[2, 1], [0, 0]⟩, ⟨[2, 2], [0, 0, 0, 0]⟩⟩

def c7Conv : ConvLayer := ⟨⟨[2, 1], [0, 0]⟩, ⟨[1, 2, 2], [0, 0, 0, 0]⟩⟩

/-- C7 counterexample. FullyConnected.update_params accepts a bias of a
different shape and even a different size without failing, and
Convolution.update_params accepts a bias of mismatched shape as long as
the element count agrees; the claim that update_params fails whenever a
shape does not exactly match the existing parameter shape is false. -/
theorem C7_counterexample :
    (FullyConnected.update_params c7FC ⟨[3, 1], [1, 2, 3]⟩ ⟨[2, 2], [1, 2, 3, 4]⟩).bias
        = ⟨[3, 1], [1, 2, 3]⟩
    ∧ ([3, 1] : List ℕ) ≠ c7FC.bias.shape
    ∧ Convolution.update_params c7Conv ⟨[1, 2], [5, 6]⟩ ⟨[4], [7, 8, 9, 10]⟩
        = .ok ⟨⟨[2, 1], [5, 6]⟩, ⟨[1, 2, 2], [7, 8, 9, 10]⟩⟩
    ∧ ([1, 2] : List ℕ) ≠ c7Conv.bias.shape := by
  refine ⟨rfl, by decide, ?_, by decide⟩
  rfl

/-- Witness for C7: the Convolution success branch, the bias-mismatch
failure branch and the weight-mismatch failure branch (bias count
matching, weight count differing) at concrete arrays. -/
theorem C7_update_params_witness :
    ((FullyConnected.update_params c7FC ⟨[2, 1], [1, 2]⟩ ⟨[2, 2], [1, 2, 3, 4]⟩).bias
        = ⟨[2, 1], [1, 2]⟩
      ∧ (FullyConnected.update_params c7FC ⟨[2, 1], [1, 2]⟩ ⟨[2, 2], [1, 2, 3, 4]⟩).weight
        = ⟨[2, 2], [1, 2, 3, 4]⟩
      ∧ (FullyConnected.update_params c7FC ⟨[2, 1], [1, 2]⟩ ⟨[2, 2], [1, 2, 3, 4]⟩).inputShape
        = c7FC.inputShape
      ∧ (FullyConnected.update_params c7FC ⟨[2, 1], [1, 2]⟩ ⟨[2, 2], [1, 2, 3, 4]⟩).outputShape
        = c7FC.outputShape)
    ∧ Convolution.update_params c7Conv ⟨[2, 1], [1, 2]⟩ ⟨[1, 2, 2], [1, 2, 3, 4]⟩
        = .ok ⟨⟨[2, 1], [1, 2]⟩, ⟨[1, 2, 2], [1, 2, 3, 4]⟩⟩
    ∧ Convolution.update_params c7Conv ⟨[5], [1, 2, 3, 4, 5]⟩ ⟨[1, 2, 2], [1, 2, 3, 4]⟩
        = .error "cannot reshape array"
    ∧ Convolution.update_params c7Conv ⟨[2, 1], [1, 2]⟩ ⟨[3], [7, 8, 9]⟩
        = .error "cannot reshape array" :=
  ⟨(C7_update_params c7FC c7Conv ⟨[2, 1], [1, 2]⟩ ⟨[2, 2], [1, 2, 3, 4]⟩).1,
    (C7_update_params c7FC c7Conv ⟨[2, 1], [1, 2]⟩ ⟨[1, 2, 2], [1, 2, 3, 4]⟩).2.1
      (by decide) (by decide),
    (C7_update_params c7FC c7Conv ⟨[5], [1, 2, 3, 4, 5]⟩ ⟨[1, 2, 2], [1, 2, 3, 4]⟩).2.2.1
      (by decide),
    (C7_update_params c7FC c7Conv ⟨[2, 1], [1, 2]⟩ ⟨[3], [7, 8, 9]⟩).2.2.2
      (by decide) (by decide)⟩

/-! ## The Pool layer frame properties (model/layer.py) -/

/-- The observable state of a Pool layer. -/
structure PoolLayer where
  inputShape : List ℕ
  outputShape : List ℕ
  kernelShape : List ℕ
  strideShape : List ℕ
  mode : ℕ
deriving DecidableEq

namespace Pool

/-- Embeds the Pool.bias property: always the empty array. -/
def bias (l : PoolLayer) : NArray := ⟨[0], []⟩

/-- Embeds the Pool.weight property: always the empty array. -/
def weight (l : PoolLayer) : NArray := ⟨[0], []⟩

/-- Embeds Pool.update_params: the body is the Python pass statement. -/
def update_params (l : PoolLayer) (b w : NArray) : PoolLayer := l

/-- Embeds Pool.derived_params: a pair of empty arrays for any inputs. -/
def derived_params (l : PoolLayer) (x δ : NArray) : NArray × NArray :=
  (⟨[0], []⟩, ⟨[0], []⟩)

end Pool

/-- C10. Pool.update_params is a no-op leaving every observable field of
the layer unchanged, bias and weight remain the empty array, and
Pool.derived_params returns a pair of empty arrays for all inputs. -/
theorem C10_pool_frame (l : PoolLayer) (b w x δ : NArray) :
    Pool.update_params l b w = l
    ∧ Pool.bias (Pool.update_params l b w) = ⟨[0], []⟩
    ∧ Pool.weight (Pool.update_params l b w) = ⟨[0], []⟩
    ∧ (Pool.update_params l b w).inputShape = l.inputShape
    ∧ (Pool.update_params l b w).outputShape = l.outputShape
    ∧ (Pool.update_params l b w).kernelShape = l.kernelShape
    ∧ (Pool.update_params l b w).strideShape = l.strideShape
    ∧ (Pool.update_params l b w).mode = l.mode
    ∧ Pool.derived_params l x δ = (⟨[0], []⟩, ⟨[0], []⟩) :=
  ⟨rfl, rfl, rfl, rfl, rfl, rfl, rfl, rfl, rfl⟩

/-! ## The SGD parameter update (model/optimizer.py)

Parameter tensors are embedded as functions from a flat coordinate to the
stored value; the per-layer parameter lists of the network and of the
optimizer velocities mirror the Python lists. -/

/-- A parameter tensor addressed by a flat coordinate. -/
abbrev Tensor : Type := ℕ → ℚ

/-- The aggregate parameter view of a Network: biases and weights, one
entry per hidden layer in layer order. -/
structure Net where
  biases : List Tensor
  weights : List Tensor

/-- The momentum state of StochasticGradientDescent: one velocity tensor
per bias and per weight. -/
structure SGDState where
  vBiases : List Tensor
  vWeights : List Tensor

/-- Embeds vec.zeros_from: a zero tensor shaped like the given tensor. -/
def zeros_from (m : Tensor) : Tensor := fun _ => 0

/-- Elementwise sum of two per-layer gradient lists. -/
def sumTensorLists (a b : List Tensor) : List Tensor :=
  List.zipWith (fun x y => fun t => x t + y t) a b

/-- Embeds StochasticGradientDescent._param_update: velocities are decayed
by momentum and pushed by the learning rate times the gradients, the
weight velocity additionally by the L2 term eta * lambba / n scaled by the
current weight, and the new parameters written back into the layers are
parameter plus updated velocity. -/
def param_update (st : SGDState) (net : Net) (eta momentum lambba : ℚ)
    (numTrainingSamples : ℕ) (delBs delWs : List Tensor) : SGDState × Net :=
  let rcpN : ℚ := 1 / (numTrainingSamples : ℚ)
  let vbs := List.zipWith (fun vb bi => fun t => vb t * momentum - eta * bi t)
    st.vBiases delBs
  let vws := zipWith3 (fun w vw wi => fun t =>
    vw t * momentum - eta * lambba * rcpN * w t - eta * wi t)
    net.weights st.vWeights delWs
  let newBs := List.zipWith (fun b vb => fun t => b t + vb t) net.biases vbs
  let newWs := List.zipWith (fun w vw => fun t => w t + vw t) net.weights vws
  (⟨vbs, vws⟩, ⟨newBs, newWs⟩)

/-- Embeds _mini_batch_sgd_backpropagation: per-sample gradients are
summed onto zero-initialised accumulators and averaged by the reciprocal
of the mini-batch size m. -/
def mini_batch_sgd_backpropagation (zeroBs zeroWs : List Tensor)
    (sampleBs sampleWs : List (List Tensor)) (m : ℕ) : List Tensor × List Tensor :=
  let sumBs := sampleBs.foldl sumTensorLists zeroBs
  let sumWs := sampleWs.foldl sumTensorLists zeroWs
  (sumBs.map (fun g => fun t => g t * (1 / (m : ℚ))),
    sumWs.map (fun g => fun t => g t * (1 / (m : ℚ))))

/-- Embeds StochasticGradientDescent._mini_batch_param_update: average the
per-sample gradients over the mini batch, then apply the momentum update
with the training-set size. -/
def mini_batch_param_update (st : SGDState) (net : Net) (eta momentum lambba : ℚ)
    (sampleBs sampleWs : List (List Tensor)) (m numTrainingSamples : ℕ) :
    SGDState × Net :=
  let grads := mini_batch_sgd_backpropagation
    (net.biases.map zeros_from) (net.weights.map zeros_from)
    sampleBs sampleWs m
  param_update st net eta momentum lambba numTrainingSamples grads.1 grads.2

/-- Embeds the mini-batch loop of StochasticGradientDescent.optimize: each
batch updates the parameters with the mini-batch size as the averaging
count and the total training-set length as the regularisation count. The
per-sample backward pass is abstracted by the gradsB and gradsW maps. -/
def sgd_optimize (st : SGDState) (net : Net) (eta momentum lambba : ℚ)
    (gradsB gradsW : α → List Tensor) (trainingSet : List α)
    (batches : List (List α)) : SGDState × Net :=
  batches.foldl (fun sn batch =>
    mini_batch_param_update sn.1 sn.2 eta momentum lambba
      (batch.map gradsB) (batch.map gradsW) batch.length trainingSet.length)
    (st, net)

lemma getD_zipWith (f : Tensor → Tensor → Tensor) (a b : List Tensor) (ℓ : ℕ)
    (ha : ℓ < a.length) (hb : ℓ < b.length) :
    (List.zipWith f a b).getD ℓ (fun _ => 0)
      = f (a.getD ℓ (fun _ => 0)) (b.getD ℓ (fun _ => 0)) := by
  induction a generalizing b ℓ with
  | nil => cases ha
  | cons x xs ih =>
    cases b with
    | nil => cases hb
    | cons y ys =>
      cases ℓ with
      | zero => rfl
      | succ n =>
        simp only [List.zipWith_cons_cons, List.getD_cons_succ]
        exact ih ys n (by simpa using ha) (by simpa using hb)

lemma getD_zipWith3 (f : Tensor → Tensor → Tensor → Tensor) (a b c : List Tensor)
    (ℓ : ℕ) (ha : ℓ < a.length) (hb : ℓ < b.length) (hc : ℓ < c.length) :
    (zipWith3 f a b c).getD ℓ (fun _ => 0)
      = f (a.getD ℓ (fun _ => 0)) (b.getD ℓ (fun _ => 0)) (c.getD ℓ (fun _ => 0)) := by
  induction a generalizing b c ℓ with
  | nil => cases ha
  | cons x xs ih =>
    cases b with
    | nil => cases hb
    | cons y ys =>
      cases c with
      | nil => cases hc
      | cons z zs =>
        cases ℓ with
        | zero => rfl
        | succ n =>
          show (zipWith3 f xs ys zs).getD n (fun _ => 0) = _
          exact ih ys zs n (by simpa using ha) (by simpa using hb) (by simpa using hc)

lemma getD_map_tensor (f : Tensor → Tensor) (l : List Tensor) (ℓ : ℕ)
    (h : ℓ < l.length) :
    (l.map f).getD ℓ (fun _ => 0) = f (l.getD ℓ (fun _ => 0)) := by
  induction l generalizing ℓ with
  | nil => cases h
  | cons x xs ih =>
    cases ℓ with
    | zero => rfl
    | succ n => exact ih n (by simpa using h)

lemma foldl_sumTensorLists_getD (samples : List (List Tensor)) (acc : List Tensor)
    (ℓ t : ℕ) (hacc : ℓ < acc.length) (hs : ∀ s ∈ samples, ℓ < s.length) :
    ((samples.foldl sumTensorLists acc).getD ℓ (fun _ => 0)) t
      = (acc.getD ℓ (fun _ => 0)) t
        + (samples.map (fun s => (s.getD ℓ (fun _ => 0)) t)).sum := by
  induction samples generalizing acc with
  | nil => simp
  | cons s ss ih =>
    rw [List.foldl_cons]
    have hlen : ℓ < (sumTensorLists acc s).length := by
      rw [sumTensorLists, List.length_zipWith]
      have := hs s (List.mem_cons_self s ss)
      omega
    rw [ih (sumTensorLists acc s) hlen (fun s2 hs2 => hs s2 (List.mem_cons_of_mem s hs2))]
    rw [show (sumTensorLists acc s).getD ℓ (fun _ => 0)
        = fun t => (acc.getD ℓ (fun _ => 0)) t + (s.getD ℓ (fun _ => 0)) t from
      getD_zipWith _ acc s ℓ hacc (hs s (List.mem_cons_self s ss))]
    simp only [List.map_cons, List.sum_cons]
    ring

lemma foldl_sumTensorLists_length (samples : List (List Tensor)) (acc : List Tensor)
    (ℓ : ℕ) (hacc : ℓ < acc.length) (hs : ∀ s ∈ samples, ℓ < s.length) :
    ℓ < (samples.foldl sumTensorLists acc).length := by
  induction samples generalizing acc with
  | nil => exact hacc
  | cons s ss ih =>
    rw [List.foldl_cons]
    refine ih (sumTensorLists acc s) ?_ (fun s2 h2 => hs s2 (List.mem_cons_of_mem s h2))
    rw [sumTensorLists, List.length_zipWith]
    have := hs s (List.mem_cons_self s ss)
    omega

/-- C4. One mini-batch update of the SGD optimizer: each bias velocity
becomes v_b * momentum - eta * db and each weight velocity becomes
v_w * momentum - eta * lambba / N * w - eta * dw, where db and dw are the
per-sample gradients summed over the mini batch and divided by the
mini-batch size m, and N is the training-set size; the parameters written
back into the network are b + v_b and w + v_w with the updated
velocities. The optimize loop passes the full training-set length as N. -/
theorem C4_sgd_mini_batch_update (st : SGDState) (net : Net)
    (eta momentum lambba : ℚ) (sampleBs sampleWs : List (List Tensor))
    (m N ℓ t : ℕ) (gradsB gradsW : (List Tensor × List Tensor) → List Tensor)
    (trainingSet : List (List Tensor × List Tensor)) (batch : List (List Tensor × List Tensor))
    (hvb : ℓ < st.vBiases.length) (hvw : ℓ < st.vWeights.length)
    (hnb : ℓ < net.biases.length) (hnw : ℓ < net.weights.length)
    (hsb : ∀ s ∈ sampleBs, ℓ < s.length) (hsw : ∀ s ∈ sampleWs, ℓ < s.length) :
    (((mini_batch_param_update st net eta momentum lambba sampleBs sampleWs m N).1.vBiases.getD
        ℓ (fun _ => 0)) t
      = (st.vBiases.getD ℓ (fun _ => 0)) t * momentum
        - eta * ((sampleBs.map (fun s => (s.getD ℓ (fun _ => 0)) t)).sum * (1 / (m : ℚ))))
    ∧ (((mini_batch_param_update st net eta momentum lambba sampleBs sampleWs m N).1.vWeights.getD
        ℓ (fun _ => 0)) t
      = (st.vWeights.getD ℓ (fun _ => 0)) t * momentum
        - eta * lambba * (1 / (N : ℚ)) * (net.weights.getD ℓ (fun _ => 0)) t
        - eta * ((sampleWs.map (fun s => (s.getD ℓ (fun _ => 0)) t)).sum * (1 / (m : ℚ))))
    ∧ (((mini_batch_param_update st net eta momentum lambba sampleBs sampleWs m N).2.biases.getD
        ℓ (fun _ => 0)) t
      = (net.biases.getD ℓ (fun _ => 0)) t
        + ((mini_batch_param_update st net eta momentum lambba sampleBs sampleWs m N).1.vBiases.getD
            ℓ (fun _ => 0)) t)
    ∧ (((mini_batch_param_update st net eta momentum lambba sampleBs sampleWs m N).2.weights.getD
        ℓ (fun _ => 0)) t
      = (net.weights.getD ℓ (fun _ => 0)) t
        + ((mini_batch_param_update st net eta momentum lambba sampleBs sampleWs m N).1.vWeights.getD
            ℓ (fun _ => 0)) t)
    ∧ (sgd_optimize st net eta momentum lambba gradsB gradsW trainingSet [batch]
      = mini_batch_param_update st net eta momentum lambba
          (batch.map gradsB) (batch.map gradsW) batch.length trainingSet.length) := by
  have hzb : ℓ < (net.biases.map zeros_from).length := by
    rw [List.length_map]; exact hnb
  have hzw : ℓ < (net.weights.map zeros_from).length := by
    rw [List.length_map]; exact hnw
  have hsumb : ℓ < (sampleBs.foldl sumTensorLists
      (net.biases.map zeros_from)).length :=
    foldl_sumTensorLists_length sampleBs _ ℓ hzb hsb
  have hsumw : ℓ < (sampleWs.foldl sumTensorLists
      (net.weights.map zeros_from)).length :=
    foldl_sumTensorLists_length sampleWs _ ℓ hzw hsw
  have hzbv : (net.biases.map zeros_from).getD ℓ (fun _ => 0)
      = fun _ => (0:ℚ) := getD_map_tensor zeros_from net.biases ℓ hnb
  have hzwv : (net.weights.map zeros_from).getD ℓ (fun _ => 0)
      = fun _ => (0:ℚ) := getD_map_tensor zeros_from net.weights ℓ hnw
  have evb : (mini_batch_param_update st net eta momentum lambba sampleBs sampleWs m N).1.vBiases
      = List.zipWith (fun vb bi => fun t => vb t * momentum - eta * bi t) st.vBiases
          ((sampleBs.foldl sumTensorLists (net.biases.map zeros_from)).map
            (fun g => fun t => g t * (1 / (m : ℚ)))) := rfl
  have evw : (mini_batch_param_update st net eta momentum lambba sampleBs sampleWs m N).1.vWeights
      = zipWith3 (fun w vw wi => fun t =>
            vw t * momentum - eta * lambba * (1 / (N : ℚ)) * w t - eta * wi t)
          net.weights st.vWeights
          ((sampleWs.foldl sumTensorLists (net.weights.map zeros_from)).map
            (fun g => fun t => g t * (1 / (m : ℚ)))) := rfl
  have hmb : ℓ < ((sampleBs.foldl sumTensorLists
      (net.biases.map zeros_from)).map
        (fun g => fun t => g t * (1 / (m : ℚ)))).length := by
    rw [List.length_map]; exact hsumb
  have hmw : ℓ < ((sampleWs.foldl sumTensorLists
      (net.weights.map zeros_from)).map
        (fun g => fun t => g t * (1 / (m : ℚ)))).length := by
    rw [List.length_map]; exact hsumw
  have hgb : (((sampleBs.foldl sumTensorLists
        (net.biases.map zeros_from)).map
          (fun g => fun t => g t * (1 / (m : ℚ)))).getD ℓ (fun _ => 0)) t
      = (sampleBs.map (fun s => (s.getD ℓ (fun _ => 0)) t)).sum * (1 / (m : ℚ)) := by
    rw [getD_map_tensor _ _ ℓ hsumb]
    show ((sampleBs.foldl sumTensorLists
      (net.biases.map zeros_from)).getD ℓ (fun _ => 0)) t * (1 / (m : ℚ)) = _
    rw [foldl_sumTensorLists_getD sampleBs _ ℓ t hzb hsb, hzbv]
    ring
  have hgw : (((sampleWs.foldl sumTensorLists
        (net.weights.map zeros_from)).map
          (fun g => fun t => g t * (1 / (m : ℚ)))).getD ℓ (fun _ => 0)) t
      = (sampleWs.map (fun s => (s.getD ℓ (fun _ => 0)) t)).sum * (1 / (m : ℚ)) := by
    rw [getD_map_tensor _ _ ℓ hsumw]
    show ((sampleWs.foldl sumTensorLists
      (net.weights.map zeros_from)).getD ℓ (fun _ => 0)) t * (1 / (m : ℚ)) = _
    rw [foldl_sumTensorLists_getD sampleWs _ ℓ t hzw hsw, hzwv]
    ring
  refine ⟨?_, ?_, ?_, ?_, rfl⟩
  · rw [evb, getD_zipWith _ st.vBiases _ ℓ hvb hmb]
    show (st.vBiases.getD ℓ (fun _ => 0)) t * momentum - eta * _ = _
    rw [hgb]
  · rw [evw, getD_zipWith3 _ net.weights st.vWeights _ ℓ hnw hvw hmw]
    show (st.vWeights.getD ℓ (fun _ => 0)) t * momentum
        - eta * lambba * (1 / (N : ℚ)) * (net.weights.getD ℓ (fun _ => 0)) t - eta * _ = _
    rw [hgw]
  · have enb : (mini_batch_param_update st net eta momentum lambba sampleBs sampleWs m N).2.biases
        = List.zipWith (fun b vb => fun t => b t + vb t) net.biases
          (mini_batch_param_update st net eta momentum lambba sampleBs sampleWs m N).1.vBiases :=
      rfl
    have hlv : ℓ < (mini_batch_param_update st net eta momentum lambba
        sampleBs sampleWs m N).1.vBiases.length := by
      simp only [evb, List.length_zipWith]
      exact lt_min hvb hmb
    rw [enb, getD_zipWith _ net.biases _ ℓ hnb hlv]
  · have enw : (mini_batch_param_update st net eta momentum lambba sampleBs sampleWs m N).2.weights
        = List.zipWith (fun w vw => fun t => w t + vw t) net.weights
          (mini_batch_param_update st net eta momentum lambba sampleBs sampleWs m N).1.vWeights :=
      rfl
    have hlv : ℓ < (mini_batch_param_update st net eta momentum lambba
        sampleBs sampleWs m N).1.vWeights.length := by
      simp only [evw, zipWith3_length]
      exact lt_min hnw (lt_min hvw hmw)
    rw [enw, getD_zipWith _ net.weights _ ℓ hnw hlv]

def c4St : SGDState := ⟨[fun _ => 1], [fun _ => 2]⟩

def c4Net : Net := ⟨[fun _ => 3], [fun _ => 4]⟩

def c4SB : List (List Tensor) := [[fun _ => 5], [fun _ => 7]]

def c4SW : List (List Tensor) := [[fun _ => 1], [fun _ => 3]]

def c4GB : (List Tensor × List Tensor) → List Tensor := fun s => s.1

def c4GW : (List Tensor × List Tensor) → List Tensor := fun s => s.2

def c4TS : List (List Tensor × List Tensor) :=
  [([fun _ => 5], [fun _ => 1]), ([fun _ => 7], [fun _ => 3]),
    ([fun _ => 5], [fun _ => 1]), ([fun _ => 7], [fun _ => 3])]

def c4Batch : List (List Tensor × List Tensor) :=
  [([fun _ => 5], [fun _ => 1]), ([fun _ => 7], [fun _ => 3])]

/-- Witness for C4 on a one-layer network with a two-sample mini batch:
eta = 1/2, momentum = 1/3, lambba = 2, mini-batch size 2, training-set
size 4. -/
theorem C4_sgd_mini_batch_update_witness :
    ((mini_batch_param_update c4St c4Net (1/2) (1/3) 2 c4SB c4SW 2 4).1.vBiases.getD
        0 (fun _ => 0)) 0 = -8/3
    ∧ ((mini_batch_param_update c4St c4Net (1/2) (1/3) 2 c4SB c4SW 2 4).1.vWeights.getD
        0 (fun _ => 0)) 0 = -4/3
    ∧ ((mini_batch_param_update c4St c4Net (1/2) (1/3) 2 c4SB c4SW 2 4).2.biases.getD
        0 (fun _ => 0)) 0 = 1/3
    ∧ ((mini_batch_param_update c4St c4Net (1/2) (1/3) 2 c4SB c4SW 2 4).2.weights.getD
        0 (fun _ => 0)) 0 = 8/3
    ∧ sgd_optimize c4St c4Net (1/2) (1/3) 2 c4GB c4GW c4TS [c4Batch]
      = mini_batch_param_update c4St c4Net (1/2) (1/3) 2
          (c4Batch.map c4GB) (c4Batch.map c4GW) c4Batch.length c4TS.length := by
  have h := C4_sgd_mini_batch_update c4St c4Net (1/2) (1/3) 2 c4SB c4SW 2 4 0 0
    c4GB c4GW c4TS c4Batch (by decide) (by decide) (by decide) (by decide)
    (by decide) (by decide)
  refine ⟨?_, ?_, ?_, ?_, h.2.2.2.2⟩
  · rw [h.1]
    norm_num [c4St, c4SB, List.getD_cons_zero, List.sum_cons, List.sum_nil]
  · rw [h.2.1]
    norm_num [c4St, c4Net, c4SW, List.getD_cons_zero, List.sum_cons, List.sum_nil]
  · rw [h.2.2.1, h.1]
    norm_num [c4St, c4Net, c4SB, List.getD_cons_zero, List.sum_cons, List.sum_nil]
  · rw [h.2.2.2.1, h.2.1]
    norm_num [c4St, c4Net, c4SW, List.getD_cons_zero, List.sum_cons, List.sum_nil]

/-! ## The per-sample backward pass (model/optimizer.py and model.py)

For a fixed training sample the per-layer operations of the backward chain
are functions of the error signal alone: backprop is the backpropagate
call of a layer at the stored activations, jac is the jacobian product of
the activation at that boundary, and dparams is derived_params at the
stored activations. The gradient clip is an arbitrary function of the
signal, standing for the norm clip analysed in C2. Layers are listed from
the output end to the input end, the order the backward loop visits
them. -/

/-- One layer of the backward chain, closed over the sample data. -/
structure BPLayer where
  backprop : List ℚ → List ℚ
  jac : List ℚ → List ℚ
  dparams : List ℚ → List ℚ × List ℚ

/-- The boundary signals before clipping: the head is the initial delta
derived from the cost (the jacobian product with the cost derivative) and
each following signal is obtained by backpropagating the clipped previous
signal through the layer above and applying the jacobian product of the
boundary. -/
def raw_go (clip : List ℚ → List ℚ) (r : List ℚ) (upper : BPLayer) :
    List BPLayer → List (List ℚ)
  | [] => [r]
  | l :: rest => r :: raw_go clip (l.jac (upper.backprop (clip r))) l rest

/-- The boundary signals of the backward pass, unclipped, output first. -/
def raw_signals (clip : List ℚ → List ℚ) (dCda : List ℚ) :
    List BPLayer → List (List ℚ)
  | [] => []
  | top :: rest => raw_go clip (top.jac dCda) top rest

/-- The clipped signals consumed by the backward pass, output first. -/
def consumed_go (clip : List ℚ → List ℚ) (d : List ℚ) (upper : BPLayer) :
    List BPLayer → List (List ℚ)
  | [] => [d]
  | l :: rest => d :: consumed_go clip (clip (l.jac (upper.backprop d))) l rest

/-- The deltas consumed by derived_params in _sgd_backpropagation. -/
def consumed_deltas (clip : List ℚ → List ℚ) (dCda : List ℚ) :
    List BPLayer → List (List ℚ)
  | [] => []
  | top :: rest => consumed_go clip (clip (top.jac dCda)) top rest

/-- The recursion of _sgd_backpropagation producing per-layer gradients:
the delta of the output layer is the clipped jacobian product of the cost
derivative, and each further delta is clipped after backpropagating
through the layer above and applying the boundary jacobian, before
derived_params consumes it. -/
def sgd_go (clip : List ℚ → List ℚ) (d : List ℚ) (upper : BPLayer) :
    List BPLayer → List (List ℚ × List ℚ)
  | [] => [upper.dparams d]
  | l :: rest => upper.dparams d :: sgd_go clip (clip (l.jac (upper.backprop d))) l rest

/-- Embeds _sgd_backpropagation (and Network._backpropagation of
model.py, which has the same chain): the per-layer gradients of one
sample, layers listed output first. -/
def sgd_backpropagation (clip : List ℚ → List ℚ) (dCda : List ℚ) :
    List BPLayer → List (List ℚ × List ℚ)
  | [] => []
  | top :: rest => sgd_go clip (clip (top.jac dCda)) top rest

lemma consumed_go_eq_raw (clip : List ℚ → List ℚ) (rest : List BPLayer) :
    ∀ (r : List ℚ) (upper : BPLayer),
      consumed_go clip (clip r) upper rest = (raw_go clip r upper rest).map clip := by
  induction rest with
  | nil => intro r upper; rfl
  | cons l rest ih =>
    intro r upper
    show clip r :: consumed_go clip (clip (l.jac (upper.backprop (clip r)))) l rest
      = clip r :: (raw_go clip (l.jac (upper.backprop (clip r))) l rest).map clip
    rw [ih (l.jac (upper.backprop (clip r))) l]

lemma sgd_go_eq_zip (clip : List ℚ → List ℚ) (rest : List BPLayer) :
    ∀ (d : List ℚ) (upper : BPLayer),
      sgd_go clip d upper rest
        = List.zipWith (fun L dd => L.dparams dd) (upper :: rest)
            (consumed_go clip d upper rest) := by
  induction rest with
  | nil => intro d upper; rfl
  | cons l rest ih =>
    intro d upper
    show upper.dparams d :: sgd_go clip (clip (l.jac (upper.backprop d))) l rest
      = upper.dparams d :: List.zipWith (fun L dd => L.dparams dd) (l :: rest)
          (consumed_go clip (clip (l.jac (upper.backprop d))) l rest)
    rw [ih (clip (l.jac (upper.backprop d))) l]

/-- C6. In every per-sample backward pass the gradient clip is applied at
every layer boundary before the signal is consumed: the gradients computed
by _sgd_backpropagation are exactly derived_params applied layerwise to
the consumed deltas, and the consumed deltas are exactly the boundary
signals with the clip applied — the initial delta derived from the cost
included — so every delta consumed by derived_params and propagated
further has already been norm-clipped. -/
theorem C6_backprop_clips_every_boundary (clip : List ℚ → List ℚ) (dCda : List ℚ)
    (revLayers : List BPLayer) :
    sgd_backpropagation clip dCda revLayers
      = List.zipWith (fun L dd => L.dparams dd) revLayers
          (consumed_deltas clip dCda revLayers)
    ∧ consumed_deltas clip dCda revLayers
      = (raw_signals clip dCda revLayers).map clip := by
  cases revLayers with
  | nil => exact ⟨rfl, rfl⟩
  | cons top rest =>
    constructor
    · show sgd_go clip (clip (top.jac dCda)) top rest = _
      rw [sgd_go_eq_zip clip rest (clip (top.jac dCda)) top]
      rfl
    · show consumed_go clip (clip (top.jac dCda)) top rest = _
      rw [consumed_go_eq_raw clip rest (top.jac dCda) top]
      rfl

end SNML
